import Mathlib

/-!
# CHIP-8 interpreter core (bagasjs/chip8)

A shallow embedding of the machine state and of the functions `chip8_init`,
`chip8_fetch_next_instruction` and `chip8_emulate_instruction` of
`src/chip8.c` (raylib front end) and `src/main.c` (SDL front end).

Conventions of the embedding.

* C integers are natural numbers; every place where C converts to a narrower
  unsigned type carries an explicit `% 2^w`.
* Arrays are total functions from indices; every array access of the source
  goes through a checked accessor, and an access outside the array (undefined
  behaviour in C) is reported as a `Fault`.
* `c->stack` is a `uint16_t*` into `c->ram`; it is modelled by its byte offset
  from `&c->ram[0]` (an integer, since the source can move it below the array).
  The 16-bit accesses through it depend on the byte order of the host, which
  is a parameter of the model.
* The logging calls (`TraceLog`, `printf`) have no effect on the machine state
  and are left out of the step; the array reads of `print_debug_info` are
  modelled separately, by `print_debug_info`.
-/

namespace Chip8Emu

/-! ## Constants -/

/-- Width of the display in cells (`CHIP8_DEFAULT_WINDOW_WIDTH`). -/
def CHIP8_DEFAULT_WINDOW_WIDTH : Nat := 64

/-- Height of the display in cells (`CHIP8_DEFAULT_WINDOW_HEIGHT`). -/
def CHIP8_DEFAULT_WINDOW_HEIGHT : Nat := 32

/-- Size of the memory array (`CHIP8_RAM_CAPACITY`). -/
def CHIP8_RAM_CAPACITY : Nat := 0x1000

/-- First byte of the stack region (`CHIP8_STACK_B`). -/
def CHIP8_STACK_B : Nat := 0xEA0

/-- Last byte of the stack region (`CHIP8_STACK_E`). -/
def CHIP8_STACK_E : Nat := 0xEFF

/-- Load address of the program (`CHIP8_ROM_B`). -/
def CHIP8_ROM_B : Nat := 0x200

/-- Number of display cells, `sizeof(c->display)` in the source. -/
def DISPLAY_CELLS : Nat := CHIP8_DEFAULT_WINDOW_WIDTH * CHIP8_DEFAULT_WINDOW_HEIGHT

/-! ## Data model -/

/-- Run state of the emulator (`Emulator_State`). -/
inductive Emulator_State where
  | EMULATOR_QUIT
  | EMULATOR_RUNNING
  | EMULATOR_PAUSED
  deriving DecidableEq

/-- The machine (`Chip8`).  `ram` has `CHIP8_RAM_CAPACITY` valid indices,
`display` has `DISPLAY_CELLS`, `V` and `keypad` have 16; `stack` is the byte
offset of the stack cursor from the start of `ram`. -/
structure Chip8 where
  state : Emulator_State
  ram : Nat → Nat
  display : Nat → Bool
  stack : Int
  V : Nat → Nat
  I : Nat
  PC : Nat
  delay_timer : Nat
  sound_timer : Nat
  keypad : Nat → Bool
  rom_name : Nat

/-- A decoded instruction (`Inst`). -/
structure Inst where
  opcode : Nat
  X : Nat
  Y : Nat
  N : Nat
  NN : Nat
  NNN : Nat
  deriving DecidableEq

/-- An access outside the bounds of one of the machine arrays. -/
inductive Fault where
  | ram_oob
  | display_oob
  | reg_oob
  deriving DecidableEq

/-- Byte order of the host, which fixes how a `uint16_t` lies in `ram`. -/
inductive ByteOrder where
  | little
  | big
  deriving DecidableEq

/-! ## Checked array accesses -/

/-- Read of `c->ram[a]`. -/
def ram_read (c : Chip8) (a : Nat) : Except Fault Nat :=
  if a < CHIP8_RAM_CAPACITY then .ok (c.ram a) else .error .ram_oob

/-- Write `c->ram[a] = v`. -/
def ram_write (c : Chip8) (a v : Nat) : Except Fault Chip8 :=
  if a < CHIP8_RAM_CAPACITY then .ok { c with ram := Function.update c.ram a v }
  else .error .ram_oob

/-- Read of `c->V[i]`. -/
def reg_read (c : Chip8) (i : Nat) : Except Fault Nat :=
  if i < 16 then .ok (c.V i) else .error .reg_oob

/-- Write `c->V[i] = v`. -/
def reg_write (c : Chip8) (i v : Nat) : Except Fault Chip8 :=
  if i < 16 then .ok { c with V := Function.update c.V i v } else .error .reg_oob

/-- Read of `c->display[i]`. -/
def display_read (c : Chip8) (i : Nat) : Except Fault Bool :=
  if i < DISPLAY_CELLS then .ok (c.display i) else .error .display_oob

/-- Write `c->display[i] = b`. -/
def display_write (c : Chip8) (i : Nat) (b : Bool) : Except Fault Chip8 :=
  if i < DISPLAY_CELLS then .ok { c with display := Function.update c.display i b }
  else .error .display_oob

/-- The `uint16_t` whose two bytes lie at `ram[a]` and `ram[a + 1]`. -/
def load16 (bo : ByteOrder) (ram : Nat → Nat) (a : Nat) : Nat :=
  match bo with
  | .little => ram a + 256 * ram (a + 1)
  | .big => 256 * ram a + ram (a + 1)

/-- Memory after the two bytes of the `uint16_t` value `v` have been written at
`ram[a]` and `ram[a + 1]`. -/
def store16 (bo : ByteOrder) (ram : Nat → Nat) (a v : Nat) : Nat → Nat :=
  match bo with
  | .little => Function.update (Function.update ram a (v % 256)) (a + 1) (v / 256 % 256)
  | .big => Function.update (Function.update ram a (v / 256 % 256)) (a + 1) (v % 256)

/-- Read of the `uint16_t` at byte offset `p` of `ram` (`*(uint16_t*)p`). -/
def stack_load (bo : ByteOrder) (c : Chip8) (p : Int) : Except Fault Nat :=
  if 0 ≤ p ∧ p + 1 < CHIP8_RAM_CAPACITY then .ok (load16 bo c.ram p.toNat)
  else .error .ram_oob

/-- Write of the `uint16_t` value `v` at byte offset `p` of `ram`
(`*(uint16_t*)p = v`). -/
def stack_store (bo : ByteOrder) (c : Chip8) (p : Int) (v : Nat) : Except Fault Chip8 :=
  if 0 ≤ p ∧ p + 1 < CHIP8_RAM_CAPACITY then
    .ok { c with ram := store16 bo c.ram p.toNat v }
  else .error .ram_oob

/-- Number of entries on the call stack: the distance of the cursor from
`&c->ram[CHIP8_STACK_B]` in `uint16_t` units. -/
def stack_depth (c : Chip8) : Int := (c.stack - CHIP8_STACK_B) / 2

/-! ## Initialisation -/

/-- The font table `fonts[]` of `chip8_init`. -/
def fonts : List Nat :=
  [0xF0, 0x90, 0x90, 0x90, 0xF0,
   0x20, 0x60, 0x20, 0x20, 0x70,
   0xF0, 0x10, 0xF0, 0x80, 0xF0,
   0xF0, 0x10, 0xF0, 0x10, 0xF0,
   0x90, 0x90, 0xF0, 0x10, 0x10,
   0xF0, 0x80, 0xF0, 0x10, 0xF0,
   0xF0, 0x80, 0xF0, 0x90, 0xF0,
   0xF0, 0x10, 0x20, 0x40, 0x40,
   0xF0, 0x90, 0xF0, 0x90, 0xF0,
   0xF0, 0x90, 0xF0, 0x10, 0xF0,
   0xF0, 0x90, 0xF0, 0x90, 0x90,
   0xE0, 0x90, 0xE0, 0x90, 0xE0,
   0xF0, 0x80, 0x80, 0x80, 0xF0,
   0xE0, 0x90, 0x90, 0x90, 0xE0,
   0xF0, 0x80, 0xF0, 0x80, 0xF0,
   0xF0, 0x80, 0xF0, 0x80, 0x80]

/-- The first two statements of `chip8_init`:
`memset(c->ram, 0, CHIP8_RAM_CAPACITY)` and
`memcpy(&c->ram[0], fonts, sizeof(fonts))`. -/
def init_ram (c : Chip8) : Chip8 :=
  { c with ram := fun a =>
      if a < fonts.length then fonts.getD a 0
      else if a < CHIP8_RAM_CAPACITY then 0
      else c.ram a }

/-- The last three statements of a successful `chip8_init`. -/
def init_finish (c : Chip8) : Chip8 :=
  { c with state := .EMULATOR_RUNNING, PC := CHIP8_ROM_B, stack := (CHIP8_STACK_B : Int) }

namespace Raylib

/-- The copy loop of `chip8_init` in `chip8.c`:
`for(i = 0; i < rom_size; ++i) c->ram[CHIP8_ROM_B + i] = data[i];`
with `n` iterations left. -/
def rom_copy (data : List Nat) : Nat → Nat → Chip8 → Except Fault Chip8
  | 0, _, c => .ok c
  | n + 1, i, c =>
    match ram_write c (CHIP8_ROM_B + i) (data.getD i 0) with
    | .ok c1 => rom_copy data n (i + 1) c1
    | .error e => .error e

/-- Function `chip8_init` of `chip8.c`.  The argument `file` is the result of
`LoadFileData`: `none` for `NULL`, otherwise the buffer, whose length is
`rom_size`.  The result is the C return value and the machine. -/
def chip8_init (c : Chip8) (file : Option (List Nat)) : Except Fault (Bool × Chip8) :=
  let c := init_ram c
  match file with
  | none => .ok (false, c)
  | some data =>
    let rom_size := data.length
    if rom_size > CHIP8_RAM_CAPACITY - CHIP8_ROM_B then .ok (false, c)
    else
      match rom_copy data rom_size 0 c with
      | .ok c1 => .ok (true, init_finish c1)
      | .error e => .error e

end Raylib

namespace Sdl

/-- The C library call `fread(&c->ram[dst], size, nmemb, f)` on a stream whose
remaining content is `stream` (ISO C 7.21.8.1): nothing is read and 0 is
returned when `size` or `nmemb` is 0; otherwise up to `size * nmemb` bytes are
stored and the number of complete elements is returned. -/
def fread (c : Chip8) (dst size nmemb : Nat) (stream : List Nat) : Except Fault (Nat × Chip8) :=
  if size = 0 ∨ nmemb = 0 then .ok (0, c)
  else
    let got := stream.take (size * nmemb)
    if dst + got.length ≤ CHIP8_RAM_CAPACITY then
      .ok (got.length / size,
           { c with ram := fun a =>
               if dst ≤ a ∧ a < dst + got.length then got.getD (a - dst) 0 else c.ram a })
    else .error .ram_oob

/-- Function `chip8_init` of `main.c`.  The argument `file` is the content of
the file named `conf.rom_name`: `none` when `fopen` fails; `ftell` at the end
of the file gives its length. -/
def chip8_init (c : Chip8) (file : Option (List Nat)) : Except Fault (Bool × Chip8) :=
  let c := init_ram c
  match file with
  | none => .ok (false, c)
  | some bytes =>
    let rom_size := bytes.length
    if rom_size > CHIP8_RAM_CAPACITY - CHIP8_ROM_B then .ok (false, c)
    else
      match fread c CHIP8_ROM_B rom_size 1 bytes with
      | .ok (n, c1) => if n ≠ 1 then .ok (false, c1) else .ok (true, init_finish c1)
      | .error e => .error e

end Sdl

/-! ## Fetch and decode -/

/-- Function `chip8_fetch_next_instruction` (identical in both files). -/
def chip8_fetch_next_instruction (c : Chip8) : Except Fault (Inst × Chip8) :=
  match ram_read c c.PC with
  | .error e => .error e
  | .ok hi =>
    match ram_read c (c.PC + 1) with
    | .error e => .error e
    | .ok lo =>
      let opcode := ((hi <<< 8) ||| lo) % 65536
      .ok ({ opcode := opcode
             NNN := opcode &&& 0x0FFF
             NN := opcode &&& 0x0FF
             N := opcode &&& 0x0F
             X := (opcode >>> 8) &&& 0x0F
             Y := (opcode >>> 4) &&& 0x0F },
           { c with PC := (c.PC + 2) % 65536 })

/-! ## Execution -/

/-- The inner loop of the draw instruction,
`for(int8_t j = 7; j >= 0; j--)`, entered with `j = n - 1` (`n = 0` is the
exit test `j >= 0` failing). -/
def draw_bits (sprite_data y_coord : Nat) : Nat → Nat → Chip8 → Except Fault Chip8
  | 0, _, c => .ok c
  | j + 1, x_coord, c =>
    let display_index := (y_coord * CHIP8_DEFAULT_WINDOW_WIDTH + x_coord) % 65536
    let sprite_bit : Bool := decide (sprite_data &&& (1 <<< j) ≠ 0)
    match display_read c display_index with
    | .error e => .error e
    | .ok d =>
      match (if sprite_bit && d then reg_write c 0xF 1 else .ok c) with
      | .error e => .error e
      | .ok c1 =>
        match display_write c1 display_index (xor d sprite_bit) with
        | .error e => .error e
        | .ok c2 =>
          let x_next := (x_coord + 1) % 256
          if x_next ≥ CHIP8_DEFAULT_WINDOW_WIDTH then .ok c2
          else draw_bits sprite_data y_coord j x_next c2

/-- The outer loop of the draw instruction,
`for(uint8_t i = 0; i < inst.N; i++)`, with `n = inst.N - i` iterations
left. -/
def draw_rows (x_orig : Nat) : Nat → Nat → Nat → Chip8 → Except Fault Chip8
  | 0, _, _, c => .ok c
  | n + 1, i, y_coord, c =>
    match ram_read c (c.I + i) with
    | .error e => .error e
    | .ok sprite_data =>
      match draw_bits sprite_data y_coord 8 x_orig c with
      | .error e => .error e
      | .ok c1 =>
        let y_next := (y_coord + 1) % 256
        if y_next ≥ CHIP8_DEFAULT_WINDOW_HEIGHT then .ok c1
        else draw_rows x_orig n (i + 1) y_next c1

/-- The body of `case 0xD` of `chip8_emulate_instruction`. -/
def draw_sprite (inst : Inst) (c : Chip8) : Except Fault Chip8 :=
  match reg_read c inst.X with
  | .error e => .error e
  | .ok vx =>
    match reg_read c inst.Y with
    | .error e => .error e
    | .ok vy =>
      let x_coord := vx % CHIP8_DEFAULT_WINDOW_WIDTH
      let y_coord := vy % CHIP8_DEFAULT_WINDOW_HEIGHT
      let x_orig := x_coord
      match reg_write c 0xF 0 with
      | .error e => .error e
      | .ok c1 => draw_rows x_orig inst.N 0 y_coord c1

/-- The `switch` of `chip8_emulate_instruction`, on the machine after the
fetch. -/
def execute (bo : ByteOrder) (inst : Inst) (c : Chip8) : Except Fault Chip8 :=
  let op := (inst.opcode >>> 12) &&& 0x0F
  if op = 0x0 then
    if inst.NN = 0xE0 then
      .ok { c with display := fun i => if i < DISPLAY_CELLS then false else c.display i }
    else if inst.NN = 0xEE then
      match stack_load bo c c.stack with
      | .error e => .error e
      | .ok top => .ok { c with PC := top, stack := c.stack - 2 }
    else .ok c
  else if op = 0x1 then .ok { c with PC := inst.NNN }
  else if op = 0x2 then
    match stack_store bo c c.stack c.PC with
    | .error e => .error e
    | .ok c1 => .ok { c1 with PC := inst.NNN, stack := c1.stack + 2 }
  else if op = 0x6 then reg_write c inst.X inst.NN
  else if op = 0x7 then
    match reg_read c inst.X with
    | .error e => .error e
    | .ok v => reg_write c inst.X ((v + inst.NN) % 256)
  else if op = 0xA then .ok { c with I := inst.NNN }
  else if op = 0xD then draw_sprite inst c
  else .ok c

/-- Function `chip8_emulate_instruction` (identical in both files): fetch,
then dispatch on the top nibble of the opcode. -/
def chip8_emulate_instruction (bo : ByteOrder) (c : Chip8) : Except Fault Chip8 :=
  match chip8_fetch_next_instruction c with
  | .error e => .error e
  | .ok (inst, c1) => execute bo inst c1

/-- Run `n` instructions, stopping at the first fault. -/
def run (bo : ByteOrder) : Nat → Chip8 → Except Fault Chip8
  | 0, c => .ok c
  | n + 1, c =>
    match chip8_emulate_instruction bo c with
    | .error e => .error e
    | .ok c1 => run bo n c1

/-! ## Specification-side helpers -/

/-- Memory after a successful load of `rom`: the image left by `init_ram`
with the ROM bytes laid over it from `CHIP8_ROM_B` on. -/
def loaded_ram (c : Chip8) (rom : List Nat) : Nat → Nat :=
  fun a =>
    if CHIP8_ROM_B ≤ a ∧ a < CHIP8_ROM_B + rom.length then rom.getD (a - CHIP8_ROM_B) 0
    else (init_ram c).ram a

/-- The machine a successful `chip8_init` leaves behind. -/
def loaded (c : Chip8) (rom : List Nat) : Chip8 :=
  init_finish { (init_ram c) with ram := loaded_ram c rom }

/-! ## Concrete machines -/

/-- A machine with every field zero, before `chip8_init`. -/
def blank : Chip8 :=
  { state := .EMULATOR_QUIT, ram := fun _ => 0, display := fun _ => false, stack := 0,
    V := fun _ => 0, I := 0, PC := 0, delay_timer := 0, sound_timer := 0,
    keypad := fun _ => false, rom_name := 0 }

/-- Two draw instructions `D015` in a row: the glyph at `I = 0` (the font
digit 0), five rows, at `(V0, V1) = (0, 0)`. -/
def demo_draw : Chip8 := loaded blank [0xD0, 0x15, 0xD0, 0x15]

/-- A draw `D015` at `(V0, V1) = (60, 31)`, overhanging the right and the
bottom edge. -/
def demo_edge : Chip8 :=
  { (loaded blank [0xD0, 0x15]) with V := fun i => if i = 0 then 60 else if i = 1 then 31 else 0 }

/-- A draw `D011` of the sprite byte `0xFF` at `(0, 0)` onto a display whose
only lit cell is `(0, 0)`, with `VF = 7` beforehand. -/
def demo_hit : Chip8 :=
  { (loaded blank [0xD0, 0x11, 0xFF]) with
    I := 0x202, display := fun i => decide (i = 0), V := fun i => if i = 15 then 7 else 0 }

/-- A program that calls the subroutine at `0x204`, which returns at once:
`2204` at `0x200`, `0000` at `0x202`, `00EE` at `0x204`. -/
def call_return_rom : List Nat := [0x22, 0x04, 0x00, 0x00, 0x00, 0xEE]

/-- The synthetic program of the end-to-end test: clear screen, `V0 = 5`,
`V1 = 10`, `I = 0x200`, draw 5 rows at `(V0, V1)`. -/
def demo_rom : List Nat := [0x00, 0xE0, 0x60, 0x05, 0x61, 0x0A, 0xA2, 0x00, 0xD0, 0x15]

/-- A machine whose fields all hold leftovers, as the uninitialised local
`Chip8 chip8;` of `main` may. -/
def dirty : Chip8 :=
  { state := .EMULATOR_QUIT, ram := fun _ => 0xAA, display := fun _ => true, stack := 5,
    V := fun _ => 9, I := 0x123, PC := 1, delay_timer := 7, sound_timer := 8,
    keypad := fun _ => true, rom_name := 0 }

/-- A program whose first instruction jumps to the odd address `0x201`. -/
def odd_jump_rom : List Nat := [0x12, 0x01]

/-- A program whose first instruction is a return. -/
def lone_return_rom : List Nat := [0x00, 0xEE]

/-- A program whose first instruction calls itself: `2200` at `0x200`. -/
def self_call_rom : List Nat := [0x22, 0x00]

/-- A program whose jump and call have even targets: `1204` at `0x200` jumps
to `0x204`, `2208` there calls `0x208`, `00EE` there returns. -/
def even_targets_rom : List Nat :=
  [0x12, 0x04, 0x00, 0x00, 0x22, 0x08, 0x00, 0x00, 0x00, 0xEE]

/-- A program whose first instruction calls the odd address `0x205`. -/
def odd_call_rom : List Nat := [0x22, 0x05]

/-- A machine about to execute a call with 16 entries on the call stack. -/
def sixteen_deep : Chip8 :=
  { (loaded blank self_call_rom) with stack := 0xEA0 + 32 }

/-- The machines reachable from `c0` by completed steps in which every jump
and call has an even target `NNN` and every return finds an even address in
the slot at the stack cursor. -/
inductive EvenTargetReach (bo : ByteOrder) (c0 : Chip8) : Chip8 → Prop where
  | start : EvenTargetReach bo c0 c0
  | step (c c1 c' : Chip8) (inst : Inst) :
      EvenTargetReach bo c0 c →
      chip8_fetch_next_instruction c = .ok (inst, c1) →
      chip8_emulate_instruction bo c = .ok c' →
      (((inst.opcode >>> 12) &&& 0x0F = 0x1 ∨ (inst.opcode >>> 12) &&& 0x0F = 0x2) →
        inst.NNN % 2 = 0) →
      (((inst.opcode >>> 12) &&& 0x0F = 0x0 ∧ inst.NN = 0xEE) →
        load16 bo c.ram c.stack.toNat % 2 = 0) →
      EvenTargetReach bo c0 c'

/-- A machine about to execute `7302` with `V3 = 0xFF` and `VF = 5`. -/
def demo_add : Chip8 :=
  { (loaded blank [0x73, 0x02]) with V := fun i => if i = 3 then 0xFF else if i = 15 then 5 else 0 }

/-- A machine about to execute `00E0` with every display cell lit. -/
def demo_clear : Chip8 := loaded dirty [0x00, 0xE0]

/-- A machine about to execute `8120`, an opcode of a class the source does
not implement. -/
def demo_unimplemented : Chip8 := loaded dirty [0x81, 0x20]

/-! ## Debug output -/

/-- The array reads of `print_debug_info`, which `chip8_emulate_instruction`
calls right after the fetch unless `NDEBUG` is defined: `*(c->stack - 1)` for a
return, `c->V[inst.X]` for `6XNN` and `7XNN`, `c->V[inst.X]` and
`c->V[inst.Y]` for a draw.  The text it prints is not modelled, and it writes
nothing. -/
def print_debug_info (bo : ByteOrder) (c : Chip8) (inst : Inst) : Except Fault Unit :=
  let op := (inst.opcode >>> 12) &&& 0x0F
  if op = 0x0 then
    if inst.NN = 0xE0 then .ok ()
    else if inst.NN = 0xEE then
      match stack_load bo c (c.stack - 2) with
      | .error e => .error e
      | .ok _ => .ok ()
    else .ok ()
  else if op = 0x1 then .ok ()
  else if op = 0x2 then .ok ()
  else if op = 0x6 then
    match reg_read c inst.X with
    | .error e => .error e
    | .ok _ => .ok ()
  else if op = 0x7 then
    match reg_read c inst.X with
    | .error e => .error e
    | .ok _ => .ok ()
  else if op = 0xA then .ok ()
  else if op = 0xD then
    match reg_read c inst.X with
    | .error e => .error e
    | .ok _ =>
      match reg_read c inst.Y with
      | .error e => .error e
      | .ok _ => .ok ()
  else .ok ()

/-! ## Input handling -/

/-- The key symbols `handle_input` of `main.c` tells apart. -/
inductive SDL_Keycode where
  | SDLK_ESCAPE
  | SDLK_SPACE
  | SDLK_OTHER
  deriving DecidableEq

/-- The event types `handle_input` of `main.c` tells apart. -/
inductive SDL_Event where
  | SDL_QUIT
  | SDL_KEYDOWN (sym : SDL_Keycode)
  | SDL_KEYUP (sym : SDL_Keycode)
  | SDL_OTHER
  deriving DecidableEq

namespace Raylib

/-- Function `handle_input` of `chip8.c`.  The arguments are the results of
`WindowShouldClose()` and of `IsKeyPressed(KEY_SPACE)`. -/
def handle_input (c : Chip8) (window_should_close key_space_pressed : Bool) : Chip8 :=
  if window_should_close then { c with state := .EMULATOR_QUIT }
  else if key_space_pressed then
    if c.state = .EMULATOR_PAUSED then { c with state := .EMULATOR_RUNNING }
    else { c with state := .EMULATOR_PAUSED }
  else c

end Raylib

namespace Sdl

/-- Function `handle_input` of `main.c`.  The argument is the event queue that
`SDL_PollEvent` drains; the result is the machine and the events left in the
queue (`SDL_QUIT` returns at once, every other event goes on with the
loop). -/
def handle_input (c : Chip8) : List SDL_Event → Chip8 × List SDL_Event
  | [] => (c, [])
  | .SDL_QUIT :: rest => ({ c with state := .EMULATOR_QUIT }, rest)
  | .SDL_KEYDOWN .SDLK_ESCAPE :: rest => handle_input { c with state := .EMULATOR_QUIT } rest
  | .SDL_KEYDOWN .SDLK_SPACE :: rest =>
    if c.state = .EMULATOR_RUNNING then handle_input { c with state := .EMULATOR_PAUSED } rest
    else handle_input { c with state := .EMULATOR_RUNNING } rest
  | .SDL_KEYDOWN .SDLK_OTHER :: rest => handle_input c rest
  | .SDL_KEYUP _ :: rest => handle_input c rest
  | .SDL_OTHER :: rest => handle_input c rest

end Sdl

/-! ## Initialisation: proofs -/

theorem raylib_rom_copy_eq (data : List Nat) (n : Nat) :
    ∀ (i : Nat) (c : Chip8), CHIP8_ROM_B + i + n ≤ CHIP8_RAM_CAPACITY →
      Raylib.rom_copy data n i c =
        .ok { c with
              ram := fun a =>
                if CHIP8_ROM_B + i ≤ a ∧ a < CHIP8_ROM_B + i + n then
                  data.getD (a - CHIP8_ROM_B) 0
                else c.ram a } := by
  induction n with
  | zero =>
    intro i c _
    have h : (fun a => if CHIP8_ROM_B + i ≤ a ∧ a < CHIP8_ROM_B + i + 0
        then data.getD (a - CHIP8_ROM_B) 0 else c.ram a) = c.ram := by
      funext a
      rw [if_neg]
      omega
    simp only [Raylib.rom_copy, h]
  | succ n ih =>
    intro i c hb
    have hw : CHIP8_ROM_B + i < CHIP8_RAM_CAPACITY := by omega
    simp only [Raylib.rom_copy, ram_write, if_pos hw]
    rw [ih (i + 1) _ (by omega)]
    congr 2
    funext a
    simp only [Function.update_apply]
    by_cases h1 : a = CHIP8_ROM_B + i
    · subst h1
      simp [CHIP8_ROM_B]
    · by_cases h2 : CHIP8_ROM_B + (i + 1) ≤ a ∧ a < CHIP8_ROM_B + (i + 1) + n
      · rw [if_pos h2, if_pos (by omega)]
      · rw [if_neg h2, if_neg h1, if_neg (by omega)]

theorem raylib_init_loads (c : Chip8) (rom : List Nat)
    (h : rom.length ≤ 3584) :
    Raylib.chip8_init c (some rom) = .ok (true, loaded c rom) := by
  have hcap : ¬ rom.length > CHIP8_RAM_CAPACITY - CHIP8_ROM_B := by
    simp only [CHIP8_RAM_CAPACITY, CHIP8_ROM_B]; omega
  have hb : CHIP8_ROM_B + 0 + rom.length ≤ CHIP8_RAM_CAPACITY := by
    simp only [CHIP8_RAM_CAPACITY, CHIP8_ROM_B]; omega
  simp only [Raylib.chip8_init, if_neg hcap, raylib_rom_copy_eq rom rom.length 0 _ hb]
  rfl

theorem sdl_init_loads (c : Chip8) (rom : List Nat)
    (h0 : 1 ≤ rom.length) (h : rom.length ≤ 3584) :
    Sdl.chip8_init c (some rom) = .ok (true, loaded c rom) := by
  have hcap : ¬ rom.length > CHIP8_RAM_CAPACITY - CHIP8_ROM_B := by
    simp only [CHIP8_RAM_CAPACITY, CHIP8_ROM_B]; omega
  have hz : ¬ (rom.length = 0 ∨ 1 = 0) := by omega
  have hb : CHIP8_ROM_B + rom.length ≤ CHIP8_RAM_CAPACITY := by
    simp only [CHIP8_RAM_CAPACITY, CHIP8_ROM_B]; omega
  have hdiv : rom.length / rom.length = 1 := Nat.div_self (by omega)
  simp only [Sdl.chip8_init, if_neg hcap, Sdl.fread, if_neg hz, Nat.mul_one, List.take_length,
    if_pos hb, hdiv, ne_eq, not_true_eq_false, if_false]
  rfl

theorem loaded_ram_rom (c : Chip8) (rom : List Nat) (i : Nat) (hi : i < rom.length) :
    loaded_ram c rom (CHIP8_ROM_B + i) = rom.getD i 0 := by
  have h : CHIP8_ROM_B ≤ CHIP8_ROM_B + i ∧ CHIP8_ROM_B + i < CHIP8_ROM_B + rom.length :=
    ⟨Nat.le_add_right _ _, Nat.add_lt_add_left hi _⟩
  simp only [loaded_ram, if_pos h, Nat.add_sub_cancel_left]

/-- C1 (defect in `main.c`): a ROM of length 0 is within the accepted sizes,
but `chip8_init` of `main.c` returns false on it, because `fread` of zero bytes
returns 0 and the code takes every result other than 1 for a read error; the
same function in `chip8.c` accepts the empty buffer. -/
theorem init_empty_rom (c : Chip8) :
    Sdl.chip8_init c (some []) = .ok (false, init_ram c) ∧
    Raylib.chip8_init c (some []) = .ok (true, loaded c []) := by
  refine ⟨?_, raylib_init_loads c [] (by decide)⟩
  simp [Sdl.chip8_init, Sdl.fread]

theorem opcode_eq (hi lo : Nat) (hhi : hi < 256) (hlo : lo < 256) :
    ((hi <<< 8) ||| lo) % 65536 = hi * 256 + lo := by
  have h1 : hi <<< 8 = 2 ^ 8 * hi := by rw [Nat.shiftLeft_eq, Nat.mul_comm]
  have h2 : (2 : Nat) ^ 8 * hi ||| lo = 2 ^ 8 * hi + lo :=
    (Nat.mul_add_lt_is_or (by omega) hi).symm
  rw [h1, h2]
  omega

theorem and_0FFF (x : Nat) : x &&& 0x0FFF = x % 4096 :=
  Nat.and_pow_two_sub_one_eq_mod x 12

theorem and_0FF (x : Nat) : x &&& 0x0FF = x % 256 :=
  Nat.and_pow_two_sub_one_eq_mod x 8

theorem and_0F (x : Nat) : x &&& 0x0F = x % 16 :=
  Nat.and_pow_two_sub_one_eq_mod x 4

theorem shr_8 (x : Nat) : x >>> 8 = x / 256 := Nat.shiftRight_eq_div_pow x 8

theorem shr_4 (x : Nat) : x >>> 4 = x / 16 := Nat.shiftRight_eq_div_pow x 4

theorem shr_12 (x : Nat) : x >>> 12 = x / 4096 := Nat.shiftRight_eq_div_pow x 12

/-- C3: with `PC ≤ 4094` (and the two bytes at `PC` being bytes), the fetch
returns the big-endian opcode `ram[PC] * 256 + ram[PC+1]` with `X` = bits
11..8, `Y` = bits 7..4, `N` = bits 3..0, `NN` = bits 7..0, `NNN` = bits 11..0,
and the machine it leaves differs from the given one in `PC` only, which has
grown by 2. -/
theorem fetch_decodes (c : Chip8) (hpc : c.PC ≤ 4094)
    (hhi : c.ram c.PC < 256) (hlo : c.ram (c.PC + 1) < 256) :
    chip8_fetch_next_instruction c =
      .ok ({ opcode := c.ram c.PC * 256 + c.ram (c.PC + 1)
             X := (c.ram c.PC * 256 + c.ram (c.PC + 1)) / 256 % 16
             Y := (c.ram c.PC * 256 + c.ram (c.PC + 1)) / 16 % 16
             N := (c.ram c.PC * 256 + c.ram (c.PC + 1)) % 16
             NN := (c.ram c.PC * 256 + c.ram (c.PC + 1)) % 256
             NNN := (c.ram c.PC * 256 + c.ram (c.PC + 1)) % 4096 },
           { c with PC := c.PC + 2 }) := by
  have h0 : c.PC < CHIP8_RAM_CAPACITY := by simp only [CHIP8_RAM_CAPACITY]; omega
  have h1 : c.PC + 1 < CHIP8_RAM_CAPACITY := by simp only [CHIP8_RAM_CAPACITY]; omega
  have h2 : (c.PC + 2) % 65536 = c.PC + 2 := by omega
  simp only [chip8_fetch_next_instruction, ram_read, if_pos h0, if_pos h1, opcode_eq _ _ hhi hlo,
    and_0FFF, and_0FF, and_0F, shr_8, shr_4, h2]

/-! ## The draw instruction: proofs -/

theorem sprite_bit_eq (s j : Nat) : decide (s &&& (1 <<< j) ≠ 0) = s.testBit j := by
  rw [Nat.one_shiftLeft, Nat.and_two_pow]
  have hp : 0 < 2 ^ j := Nat.two_pow_pos j
  cases h : s.testBit j
  · simp
  · simp

theorem draw_bits_succ (s y j x : Nat) (c : Chip8) (hy : y < 32) (hx : x < 64) :
    draw_bits s y (j + 1) x c =
      if x + 1 ≥ 64 then
        .ok { c with
              display := Function.update c.display (y * 64 + x)
                (xor (c.display (y * 64 + x)) (s.testBit j))
              V := if (s.testBit j && c.display (y * 64 + x)) = true
                   then Function.update c.V 15 1 else c.V }
      else
        draw_bits s y j (x + 1)
          { c with
            display := Function.update c.display (y * 64 + x)
              (xor (c.display (y * 64 + x)) (s.testBit j))
            V := if (s.testBit j && c.display (y * 64 + x)) = true
                 then Function.update c.V 15 1 else c.V } := by
  have hidx : (y * 64 + x) % 65536 = y * 64 + x := by omega
  have hcell : y * 64 + x < DISPLAY_CELLS := by
    simp only [DISPLAY_CELLS, CHIP8_DEFAULT_WINDOW_WIDTH, CHIP8_DEFAULT_WINDOW_HEIGHT]; omega
  have hx1 : (x + 1) % 256 = x + 1 := by omega
  have h15 : (15 : Nat) < 16 := by decide
  simp only [draw_bits, sprite_bit_eq, hidx, display_read, if_pos hcell, hx1,
    CHIP8_DEFAULT_WINDOW_WIDTH]
  by_cases hb : (s.testBit j && c.display (y * 64 + x)) = true
  · simp only [hb, if_true, reg_write, if_pos h15, display_write, if_pos hcell]
  · simp only [hb, if_false, display_write, if_pos hcell]
    rfl

theorem draw_bits_spec (s y : Nat) (hy : y < 32) (n : Nat) :
    ∀ (x : Nat) (c : Chip8), x < 64 →
      ∃ D W, draw_bits s y n x c = .ok { c with display := D, V := W } ∧
        (∀ idx, D idx =
          if idx / 64 = y ∧ x ≤ idx % 64 ∧ idx % 64 < x + n then
            xor (c.display idx) (s.testBit (n - 1 - (idx % 64 - x)))
          else c.display idx) ∧
        ((∃ k, k < n ∧ x + k < 64 ∧ s.testBit (n - 1 - k) = true ∧
            c.display (y * 64 + x + k) = true) → W = Function.update c.V 15 1) ∧
        ((¬ ∃ k, k < n ∧ x + k < 64 ∧ s.testBit (n - 1 - k) = true ∧
            c.display (y * 64 + x + k) = true) → W = c.V) := by
  induction n with
  | zero =>
    intro x c _
    refine ⟨c.display, c.V, rfl, ?_, ?_, ?_⟩
    · intro idx
      rw [if_neg]
      omega
    · rintro ⟨k, hk, _⟩
      omega
    · intro _
      rfl
  | succ n ih =>
    intro x c hx
    rw [draw_bits_succ s y n x c hy hx]
    by_cases hedge : x + 1 ≥ 64
    · rw [if_pos hedge]
      refine ⟨_, _, rfl, ?_, ?_, ?_⟩
      · intro idx
        simp only [Function.update_apply]
        by_cases h0 : idx = y * 64 + x
        · subst h0
          rw [if_pos rfl, if_pos (by omega)]
          congr 2
          omega
        · rw [if_neg h0, if_neg (by omega)]
      · rintro ⟨k, hk, hk64, hbit, hd⟩
        have hk0 : k = 0 := by omega
        subst hk0
        simp only [Nat.add_sub_cancel, Nat.sub_zero, Nat.add_zero] at hbit hd
        simp [hbit, hd]
      · intro hno
        rw [if_neg]
        intro hb
        apply hno
        refine ⟨0, by omega, by omega, ?_, ?_⟩
        · simp only [Nat.add_sub_cancel, Nat.sub_zero]
          exact (Bool.and_eq_true_iff.mp hb).1
        · exact (Bool.and_eq_true_iff.mp hb).2
    · rw [if_neg hedge]
      obtain ⟨D2, W2, heq, hD, hW1, hW0⟩ := ih (x + 1)
        { c with
          display := Function.update c.display (y * 64 + x)
            (xor (c.display (y * 64 + x)) (s.testBit n))
          V := if (s.testBit n && c.display (y * 64 + x)) = true
               then Function.update c.V 15 1 else c.V } (by omega)
      simp only [Function.update_apply] at hD hW1 hW0
      refine ⟨D2, W2, heq, ?_, ?_, ?_⟩
      · intro idx
        rw [hD idx]
        by_cases h0 : idx = y * 64 + x
        · subst h0
          rw [if_neg (by omega), if_pos rfl, if_pos (by omega)]
          congr 2
          omega
        · rw [if_neg h0]
          by_cases h1 : idx / 64 = y ∧ x + 1 ≤ idx % 64 ∧ idx % 64 < x + 1 + n
          · rw [if_pos h1, if_pos (by omega)]
            congr 2
            omega
          · rw [if_neg h1, if_neg (by omega)]
      · rintro ⟨k, hk, hk64, hbit, hd⟩
        by_cases hrest : ∃ k, k < n ∧ x + 1 + k < 64 ∧ s.testBit (n - 1 - k) = true ∧
            (if y * 64 + (x + 1) + k = y * 64 + x then
              xor (c.display (y * 64 + x)) (s.testBit n)
             else c.display (y * 64 + (x + 1) + k)) = true
        · rw [hW1 hrest]
          split
          · exact Function.update_idem _ _ _
          · rfl
        · rw [hW0 hrest]
          have hk0 : k = 0 := by
            by_contra hne
            apply hrest
            refine ⟨k - 1, by omega, by omega, ?_, ?_⟩
            · have : n - 1 - (k - 1) = n + 1 - 1 - k := by omega
              rw [this]
              exact hbit
            · rw [if_neg (by omega)]
              have : y * 64 + (x + 1) + (k - 1) = y * 64 + x + k := by omega
              rw [this]
              exact hd
          subst hk0
          simp only [Nat.add_sub_cancel, Nat.sub_zero, Nat.add_zero] at hbit hd
          simp [hbit, hd]
      · intro hno
        have hrest : ¬ ∃ k, k < n ∧ x + 1 + k < 64 ∧ s.testBit (n - 1 - k) = true ∧
            (if y * 64 + (x + 1) + k = y * 64 + x then
              xor (c.display (y * 64 + x)) (s.testBit n)
             else c.display (y * 64 + (x + 1) + k)) = true := by
          rintro ⟨k, hk, hk64, hbit, hd⟩
          apply hno
          refine ⟨k + 1, by omega, by omega, ?_, ?_⟩
          · have : n + 1 - 1 - (k + 1) = n - 1 - k := by omega
            rw [this]
            exact hbit
          · rw [if_neg (by omega)] at hd
            have : y * 64 + x + (k + 1) = y * 64 + (x + 1) + k := by omega
            rw [this]
            exact hd
        rw [hW0 hrest, if_neg]
        intro hb
        apply hno
        refine ⟨0, by omega, by omega, ?_, ?_⟩
        · simp only [Nat.add_sub_cancel, Nat.sub_zero]
          exact (Bool.and_eq_true_iff.mp hb).1
        · exact (Bool.and_eq_true_iff.mp hb).2

theorem draw_rows_succ (x n i y : Nat) (c : Chip8) (hy : y < 32) (hmem : c.I + i < 4096) :
    draw_rows x (n + 1) i y c =
      match draw_bits (c.ram (c.I + i)) y 8 x c with
      | .error e => .error e
      | .ok c1 => if y + 1 ≥ 32 then .ok c1 else draw_rows x n (i + 1) (y + 1) c1 := by
  have h : c.I + i < CHIP8_RAM_CAPACITY := hmem
  have hy1 : (y + 1) % 256 = y + 1 := by omega
  simp only [draw_rows, ram_read, if_pos h, CHIP8_DEFAULT_WINDOW_HEIGHT, hy1]

theorem draw_rows_spec (x : Nat) (hx : x < 64) (n : Nat) :
    ∀ (i y : Nat) (c : Chip8), y < 32 →
      (∀ r, r < n → y + r < 32 → c.I + i + r < 4096) →
      ∃ D W, draw_rows x n i y c = .ok { c with display := D, V := W } ∧
        (∀ idx, D idx =
          if y ≤ idx / 64 ∧ idx / 64 < y + n ∧ idx / 64 < 32 ∧
              x ≤ idx % 64 ∧ idx % 64 < x + 8 then
            xor (c.display idx)
              ((c.ram (c.I + i + (idx / 64 - y))).testBit (7 - (idx % 64 - x)))
          else c.display idx) ∧
        ((∃ r k, r < n ∧ y + r < 32 ∧ k < 8 ∧ x + k < 64 ∧
            (c.ram (c.I + i + r)).testBit (7 - k) = true ∧
            c.display ((y + r) * 64 + x + k) = true) → W = Function.update c.V 15 1) ∧
        ((¬ ∃ r k, r < n ∧ y + r < 32 ∧ k < 8 ∧ x + k < 64 ∧
            (c.ram (c.I + i + r)).testBit (7 - k) = true ∧
            c.display ((y + r) * 64 + x + k) = true) → W = c.V) := by
  induction n with
  | zero =>
    intro i y c _ _
    refine ⟨c.display, c.V, rfl, ?_, ?_, ?_⟩
    · intro idx
      rw [if_neg]
      omega
    · rintro ⟨r, k, hr, _⟩
      omega
    · intro _
      rfl
  | succ n ih =>
    intro i y c hy hmem
    have hm0 : c.I + i < 4096 := by
      have := hmem 0 (by omega) (by omega)
      omega
    rw [draw_rows_succ x n i y c hy hm0]
    obtain ⟨D1, W1, heq1, hD1, hW1a, hW1b⟩ := draw_bits_spec (c.ram (c.I + i)) y hy 8 x c hx
    rw [heq1]
    simp only []
    by_cases hedge : y + 1 ≥ 32
    · rw [if_pos hedge]
      refine ⟨D1, W1, rfl, ?_, ?_, ?_⟩
      · intro idx
        rw [hD1 idx]
        by_cases h1 : idx / 64 = y ∧ x ≤ idx % 64 ∧ idx % 64 < x + 8
        · rw [if_pos h1, if_pos (by omega)]
          have e1 : c.I + i + (idx / 64 - y) = c.I + i := by omega
          have e2 : 8 - 1 - (idx % 64 - x) = 7 - (idx % 64 - x) := by omega
          rw [e1, e2]
        · rw [if_neg h1, if_neg (by omega)]
      · rintro ⟨r, k, hr, hr32, hk, hk64, hbit, hd⟩
        have hr0 : r = 0 := by omega
        subst hr0
        apply hW1a
        refine ⟨k, hk, hk64, ?_, ?_⟩
        · simpa using hbit
        · simpa using hd
      · intro hno
        apply hW1b
        rintro ⟨k, hk, hk64, hbit, hd⟩
        apply hno
        refine ⟨0, k, by omega, by omega, hk, hk64, ?_, ?_⟩
        · simpa using hbit
        · simpa using hd
    · rw [if_neg hedge]
      have hD1row : ∀ idx, idx / 64 ≠ y → D1 idx = c.display idx := by
        intro idx hne
        rw [hD1 idx, if_neg]
        omega
      obtain ⟨D2, W2, heq2, hD2, hW2a, hW2b⟩ := ih (i + 1) (y + 1)
        { c with display := D1, V := W1 } (by omega) (by
          intro r hr h32
          have := hmem (r + 1) (by omega) (by omega)
          show c.I + (i + 1) + r < 4096
          omega)
      simp only [] at hD2 hW2a hW2b
      have hW1c : W1 = Function.update c.V 15 1 ∨ W1 = c.V := by
        by_cases h : ∃ k, k < 8 ∧ x + k < 64 ∧ (c.ram (c.I + i)).testBit (8 - 1 - k) = true ∧
            c.display (y * 64 + x + k) = true
        · exact Or.inl (hW1a h)
        · exact Or.inr (hW1b h)
      refine ⟨D2, W2, heq2, ?_, ?_, ?_⟩
      · intro idx
        rw [hD2 idx]
        by_cases h1 : y + 1 ≤ idx / 64 ∧ idx / 64 < y + 1 + n ∧ idx / 64 < 32 ∧
            x ≤ idx % 64 ∧ idx % 64 < x + 8
        · rw [if_pos h1, if_pos (by omega), hD1row idx (by omega)]
          have e1 : c.I + (i + 1) + (idx / 64 - (y + 1)) = c.I + i + (idx / 64 - y) := by omega
          rw [e1]
        · rw [if_neg h1, hD1 idx]
          by_cases h2 : idx / 64 = y ∧ x ≤ idx % 64 ∧ idx % 64 < x + 8
          · rw [if_pos h2, if_pos (by omega)]
            have e1 : c.I + i + (idx / 64 - y) = c.I + i := by omega
            have e2 : 8 - 1 - (idx % 64 - x) = 7 - (idx % 64 - x) := by omega
            rw [e1, e2]
          · rw [if_neg h2, if_neg (by omega)]
      · rintro ⟨r, k, hr, hr32, hk, hk64, hbit, hd⟩
        by_cases hrest : ∃ r k, r < n ∧ y + 1 + r < 32 ∧ k < 8 ∧ x + k < 64 ∧
            (c.ram (c.I + (i + 1) + r)).testBit (7 - k) = true ∧
            D1 ((y + 1 + r) * 64 + x + k) = true
        · rw [hW2a hrest]
          rcases hW1c with h | h
          · rw [h]
            exact Function.update_idem _ _ _
          · rw [h]
        · rw [hW2b hrest]
          apply hW1a
          have hr0 : r = 0 := by
            by_contra hne
            apply hrest
            refine ⟨r - 1, k, by omega, by omega, hk, hk64, ?_, ?_⟩
            · have : c.I + (i + 1) + (r - 1) = c.I + i + r := by omega
              rw [this]
              exact hbit
            · rw [hD1row _ (by omega)]
              have : (y + 1 + (r - 1)) * 64 + x + k = (y + r) * 64 + x + k := by
                have : y + 1 + (r - 1) = y + r := by omega
                rw [this]
              rw [this]
              exact hd
          subst hr0
          refine ⟨k, hk, hk64, ?_, ?_⟩
          · simpa using hbit
          · simpa using hd
      · intro hno
        have hrest : ¬ ∃ r k, r < n ∧ y + 1 + r < 32 ∧ k < 8 ∧ x + k < 64 ∧
            (c.ram (c.I + (i + 1) + r)).testBit (7 - k) = true ∧
            D1 ((y + 1 + r) * 64 + x + k) = true := by
          rintro ⟨r, k, hr, hr32, hk, hk64, hbit, hd⟩
          apply hno
          refine ⟨r + 1, k, by omega, by omega, hk, hk64, ?_, ?_⟩
          · have : c.I + i + (r + 1) = c.I + (i + 1) + r := by omega
            rw [this]
            exact hbit
          · rw [hD1row _ (by omega)] at hd
            have : y + (r + 1) = y + 1 + r := by omega
            rw [this]
            exact hd
        rw [hW2b hrest]
        apply hW1b
        rintro ⟨k, hk, hk64, hbit, hd⟩
        apply hno
        refine ⟨0, k, by omega, by omega, hk, hk64, ?_, ?_⟩
        · simpa using hbit
        · simpa using hd


/-! ## One step: fetch, then dispatch -/

theorem fetch_inv (c c1 : Chip8) (inst : Inst)
    (h : chip8_fetch_next_instruction c = .ok (inst, c1)) :
    c.PC + 1 < 4096 ∧ c1 = { c with PC := (c.PC + 2) % 65536 } ∧
      inst.opcode = ((c.ram c.PC <<< 8) ||| c.ram (c.PC + 1)) % 65536 ∧
      inst.X = inst.opcode / 256 % 16 ∧ inst.Y = inst.opcode / 16 % 16 ∧
      inst.N = inst.opcode % 16 ∧ inst.NN = inst.opcode % 256 ∧
      inst.NNN = inst.opcode % 4096 := by
  unfold chip8_fetch_next_instruction ram_read at h
  by_cases h0 : c.PC < CHIP8_RAM_CAPACITY
  · by_cases h1 : c.PC + 1 < CHIP8_RAM_CAPACITY
    · simp only [if_pos h0, if_pos h1, Except.ok.injEq, Prod.mk.injEq] at h
      obtain ⟨hi, hc⟩ := h
      subst hi
      subst hc
      simp only [and_0FFF, and_0FF, and_0F, shr_8, shr_4, and_self, and_true]
      exact h1
    · simp only [if_pos h0, if_neg h1] at h
      cases h
  · simp only [if_neg h0] at h
    cases h

theorem emulate_of_fetch (bo : ByteOrder) (c c1 : Chip8) (inst : Inst)
    (h : chip8_fetch_next_instruction c = .ok (inst, c1)) :
    chip8_emulate_instruction bo c = execute bo inst c1 := by
  simp only [chip8_emulate_instruction, h]

theorem execute_draw (bo : ByteOrder) (inst : Inst) (c : Chip8)
    (hop : (inst.opcode >>> 12) &&& 0x0F = 0xD) :
    execute bo inst c = draw_sprite inst c := by
  simp [execute, hop]

theorem draw_sprite_spec (inst : Inst) (c : Chip8) (hX : inst.X < 16) (hY : inst.Y < 16)
    (hmem : ∀ r, r < inst.N → c.V inst.Y % 32 + r < 32 → c.I + r < 4096) :
    ∃ D W, draw_sprite inst c = .ok { c with display := D, V := W } ∧
      (∀ idx, D idx =
        if c.V inst.Y % 32 ≤ idx / 64 ∧ idx / 64 < c.V inst.Y % 32 + inst.N ∧ idx / 64 < 32 ∧
            c.V inst.X % 64 ≤ idx % 64 ∧ idx % 64 < c.V inst.X % 64 + 8 then
          xor (c.display idx)
            ((c.ram (c.I + (idx / 64 - c.V inst.Y % 32))).testBit
              (7 - (idx % 64 - c.V inst.X % 64)))
        else c.display idx) ∧
      ((∃ r k, r < inst.N ∧ c.V inst.Y % 32 + r < 32 ∧ k < 8 ∧ c.V inst.X % 64 + k < 64 ∧
          (c.ram (c.I + r)).testBit (7 - k) = true ∧
          c.display ((c.V inst.Y % 32 + r) * 64 + c.V inst.X % 64 + k) = true) →
        W = Function.update c.V 15 1) ∧
      ((¬ ∃ r k, r < inst.N ∧ c.V inst.Y % 32 + r < 32 ∧ k < 8 ∧ c.V inst.X % 64 + k < 64 ∧
          (c.ram (c.I + r)).testBit (7 - k) = true ∧
          c.display ((c.V inst.Y % 32 + r) * 64 + c.V inst.X % 64 + k) = true) →
        W = Function.update c.V 15 0) := by
  have h15 : (15 : Nat) < 16 := by decide
  have hx : c.V inst.X % 64 < 64 := Nat.mod_lt _ (by decide)
  have hy : c.V inst.Y % 32 < 32 := Nat.mod_lt _ (by decide)
  obtain ⟨D, W, heq, hD, hWa, hWb⟩ := draw_rows_spec (c.V inst.X % 64) hx inst.N 0
    (c.V inst.Y % 32) { c with V := Function.update c.V 15 0 } hy (by
      intro r hr h32
      have := hmem r hr h32
      show c.I + 0 + r < 4096
      omega)
  simp only [Nat.add_zero] at hD hWa hWb
  refine ⟨D, W, ?_, hD, ?_, hWb⟩
  · simp only [draw_sprite, reg_read, if_pos hX, if_pos hY, reg_write, if_pos h15,
      CHIP8_DEFAULT_WINDOW_WIDTH, CHIP8_DEFAULT_WINDOW_HEIGHT]
    exact heq
  · intro hc
    rw [hWa hc]
    exact Function.update_idem _ _ _


theorem emulate_draw (bo : ByteOrder) (c c1 : Chip8) (inst : Inst)
    (hf : chip8_fetch_next_instruction c = .ok (inst, c1))
    (hop : (inst.opcode >>> 12) &&& 0x0F = 0xD)
    (hmem : ∀ r, r < inst.N → c.V inst.Y % 32 + r < 32 → c.I + r < 4096) :
    ∃ D W, chip8_emulate_instruction bo c =
        .ok { c with PC := (c.PC + 2) % 65536, display := D, V := W } ∧
      (∀ idx, D idx =
        if c.V inst.Y % 32 ≤ idx / 64 ∧ idx / 64 < c.V inst.Y % 32 + inst.N ∧ idx / 64 < 32 ∧
            c.V inst.X % 64 ≤ idx % 64 ∧ idx % 64 < c.V inst.X % 64 + 8 then
          xor (c.display idx)
            ((c.ram (c.I + (idx / 64 - c.V inst.Y % 32))).testBit
              (7 - (idx % 64 - c.V inst.X % 64)))
        else c.display idx) ∧
      ((∃ r k, r < inst.N ∧ c.V inst.Y % 32 + r < 32 ∧ k < 8 ∧ c.V inst.X % 64 + k < 64 ∧
          (c.ram (c.I + r)).testBit (7 - k) = true ∧
          c.display ((c.V inst.Y % 32 + r) * 64 + c.V inst.X % 64 + k) = true) →
        W = Function.update c.V 15 1) ∧
      ((¬ ∃ r k, r < inst.N ∧ c.V inst.Y % 32 + r < 32 ∧ k < 8 ∧ c.V inst.X % 64 + k < 64 ∧
          (c.ram (c.I + r)).testBit (7 - k) = true ∧
          c.display ((c.V inst.Y % 32 + r) * 64 + c.V inst.X % 64 + k) = true) →
        W = Function.update c.V 15 0) := by
  obtain ⟨_, hc1, _, hX, hY, _⟩ := fetch_inv c c1 inst hf
  have hX16 : inst.X < 16 := by omega
  have hY16 : inst.Y < 16 := by omega
  rw [emulate_of_fetch bo c c1 inst hf, execute_draw bo inst c1 hop]
  subst hc1
  exact draw_sprite_spec inst { c with PC := (c.PC + 2) % 65536 } hX16 hY16 hmem

theorem draw_rows_mem (x : Nat) (hx : x < 64) (n : Nat) :
    ∀ (i y : Nat) (c c' : Chip8), y < 32 → draw_rows x n i y c = .ok c' →
      ∀ r, r < n → y + r < 32 → c.I + i + r < 4096 := by
  induction n with
  | zero =>
    intro i y c c' _ _ r hr
    omega
  | succ n ih =>
    intro i y c c' hy hok r hr hr32
    by_cases hm : c.I + i < 4096
    · rw [draw_rows_succ x n i y c hy hm] at hok
      obtain ⟨D1, W1, heq1, _⟩ := draw_bits_spec (c.ram (c.I + i)) y hy 8 x c hx
      rw [heq1] at hok
      simp only [] at hok
      by_cases hedge : y + 1 ≥ 32
      · omega
      · rw [if_neg hedge] at hok
        by_cases hr0 : r = 0
        · omega
        · have := ih (i + 1) (y + 1) _ c' (by omega) hok (r - 1) (by omega) (by omega)
          have e : ({ c with display := D1, V := W1 } : Chip8).I = c.I := rfl
          rw [e] at this
          omega
    · have hm' : ¬ c.I + i < CHIP8_RAM_CAPACITY := hm
      simp only [draw_rows, ram_read, if_neg hm'] at hok
      cases hok

theorem emulate_draw_mem (bo : ByteOrder) (c c1 c' : Chip8) (inst : Inst)
    (hf : chip8_fetch_next_instruction c = .ok (inst, c1))
    (hop : (inst.opcode >>> 12) &&& 0x0F = 0xD)
    (hstep : chip8_emulate_instruction bo c = .ok c') :
    ∀ r, r < inst.N → c.V inst.Y % 32 + r < 32 → c.I + r < 4096 := by
  obtain ⟨_, hc1, _, hX, hY, _⟩ := fetch_inv c c1 inst hf
  have hX16 : inst.X < 16 := by omega
  have hY16 : inst.Y < 16 := by omega
  have h15 : (15 : Nat) < 16 := by decide
  rw [emulate_of_fetch bo c c1 inst hf, execute_draw bo inst c1 hop] at hstep
  subst hc1
  simp only [draw_sprite, reg_read, if_pos hX16, if_pos hY16, reg_write, if_pos h15,
    CHIP8_DEFAULT_WINDOW_WIDTH, CHIP8_DEFAULT_WINDOW_HEIGHT] at hstep
  intro r hr hr32
  have := draw_rows_mem (c.V inst.X % 64) (Nat.mod_lt _ (by decide)) inst.N 0
    (c.V inst.Y % 32) _ c' (Nat.mod_lt _ (by decide)) hstep r hr hr32
  have e : ({ c with PC := (c.PC + 2) % 65536, V := Function.update c.V 15 0 } : Chip8).I
      = c.I := rfl
  simpa using this

theorem draw_defined_iff (bo : ByteOrder) (c c1 : Chip8) (inst : Inst)
    (hf : chip8_fetch_next_instruction c = .ok (inst, c1))
    (hop : (inst.opcode >>> 12) &&& 0x0F = 0xD) :
    (∀ r, r < inst.N → c.V inst.Y % 32 + r < 32 → c.I + r < 4096) ↔
      ∃ c', chip8_emulate_instruction bo c = .ok c' := by
  constructor
  · intro hmem
    obtain ⟨D, W, heq, _⟩ := emulate_draw bo c c1 inst hf hop hmem
    exact ⟨_, heq⟩
  · rintro ⟨c', hstep⟩
    exact emulate_draw_mem bo c c1 c' inst hf hop hstep

theorem emulate_draw_of_ok (bo : ByteOrder) (c c1 c' : Chip8) (inst : Inst)
    (hf : chip8_fetch_next_instruction c = .ok (inst, c1))
    (hop : (inst.opcode >>> 12) &&& 0x0F = 0xD)
    (hstep : chip8_emulate_instruction bo c = .ok c') :
    c' = { c with PC := (c.PC + 2) % 65536, display := c'.display, V := c'.V } ∧
      (∀ idx, c'.display idx =
        if c.V inst.Y % 32 ≤ idx / 64 ∧ idx / 64 < c.V inst.Y % 32 + inst.N ∧ idx / 64 < 32 ∧
            c.V inst.X % 64 ≤ idx % 64 ∧ idx % 64 < c.V inst.X % 64 + 8 then
          xor (c.display idx)
            ((c.ram (c.I + (idx / 64 - c.V inst.Y % 32))).testBit
              (7 - (idx % 64 - c.V inst.X % 64)))
        else c.display idx) ∧
      ((∃ r k, r < inst.N ∧ c.V inst.Y % 32 + r < 32 ∧ k < 8 ∧ c.V inst.X % 64 + k < 64 ∧
          (c.ram (c.I + r)).testBit (7 - k) = true ∧
          c.display ((c.V inst.Y % 32 + r) * 64 + c.V inst.X % 64 + k) = true) →
        c'.V = Function.update c.V 15 1) ∧
      ((¬ ∃ r k, r < inst.N ∧ c.V inst.Y % 32 + r < 32 ∧ k < 8 ∧ c.V inst.X % 64 + k < 64 ∧
          (c.ram (c.I + r)).testBit (7 - k) = true ∧
          c.display ((c.V inst.Y % 32 + r) * 64 + c.V inst.X % 64 + k) = true) →
        c'.V = Function.update c.V 15 0) := by
  have hmem := emulate_draw_mem bo c c1 c' inst hf hop hstep
  obtain ⟨D, W, heq, hD, hW1, hW0⟩ := emulate_draw bo c c1 inst hf hop hmem
  rw [hstep] at heq
  injection heq with heq
  subst heq
  exact ⟨rfl, hD, hW1, hW0⟩

/-- C4: the draw instruction XOR-blits the sprite.  In every state whose
fetch yields a `DXYN`, the step completes exactly when the sprite rows it
draws lie inside the memory array, and the machine it returns has, for every
row `r < N` and column offset `k < 8` with `x0 + k < 64` and `y0 + r < 32`
(`x0 = V[X] mod 64`, `y0 = V[Y] mod 32` read before the instruction), the cell
`(x0 + k, y0 + r)` equal to its old value XOR bit `7 - k` of `ram[I + r]`. -/
theorem draw_xor_blit (bo : ByteOrder) (c c1 : Chip8) (inst : Inst)
    (hf : chip8_fetch_next_instruction c = .ok (inst, c1))
    (hop : (inst.opcode >>> 12) &&& 0x0F = 0xD) :
    ((∀ r, r < inst.N → c.V inst.Y % 32 + r < 32 → c.I + r < 4096) ↔
      ∃ c', chip8_emulate_instruction bo c = .ok c') ∧
    ∀ c', chip8_emulate_instruction bo c = .ok c' →
      ∀ r k, r < inst.N → k < 8 → c.V inst.X % 64 + k < 64 → c.V inst.Y % 32 + r < 32 →
        c'.display ((c.V inst.Y % 32 + r) * 64 + (c.V inst.X % 64 + k)) =
          xor (c.display ((c.V inst.Y % 32 + r) * 64 + (c.V inst.X % 64 + k)))
            ((c.ram (c.I + r)).testBit (7 - k)) := by
  refine ⟨draw_defined_iff bo c c1 inst hf hop, ?_⟩
  intro c' hstep r k hr hk hk64 hr32
  obtain ⟨_, hD, _, _⟩ := emulate_draw_of_ok bo c c1 c' inst hf hop hstep
  rw [hD, if_pos (by omega)]
  have e1 : ((c.V inst.Y % 32 + r) * 64 + (c.V inst.X % 64 + k)) / 64 - c.V inst.Y % 32 = r := by
    omega
  have e2 : ((c.V inst.Y % 32 + r) * 64 + (c.V inst.X % 64 + k)) % 64 - c.V inst.X % 64 = k := by
    omega
  rw [e1, e2]

/-- C5: the draw instruction clips and never wraps.  In every state whose
fetch yields a `DXYN`, the step completes exactly when the sprite rows it
draws lie inside the memory array, and in the machine it returns every display
cell `(col, row)` outside columns `[x0, min(x0 + 8, 64))` and rows
`[y0, min(y0 + N, 32))` holds what it held before. -/
theorem draw_clips (bo : ByteOrder) (c c1 : Chip8) (inst : Inst)
    (hf : chip8_fetch_next_instruction c = .ok (inst, c1))
    (hop : (inst.opcode >>> 12) &&& 0x0F = 0xD) :
    ((∀ r, r < inst.N → c.V inst.Y % 32 + r < 32 → c.I + r < 4096) ↔
      ∃ c', chip8_emulate_instruction bo c = .ok c') ∧
    ∀ c', chip8_emulate_instruction bo c = .ok c' →
      ∀ col row, col < 64 → row < 32 →
        ¬ (c.V inst.X % 64 ≤ col ∧ col < min (c.V inst.X % 64 + 8) 64 ∧
           c.V inst.Y % 32 ≤ row ∧ row < min (c.V inst.Y % 32 + inst.N) 32) →
        c'.display (row * 64 + col) = c.display (row * 64 + col) := by
  refine ⟨draw_defined_iff bo c c1 inst hf hop, ?_⟩
  intro c' hstep col row hcol hrow hout
  obtain ⟨_, hD, _, _⟩ := emulate_draw_of_ok bo c c1 c' inst hf hop hstep
  rw [hD, if_neg]
  intro hin
  apply hout
  have e1 : (row * 64 + col) / 64 = row := by omega
  have e2 : (row * 64 + col) % 64 = col := by omega
  rw [e1, e2] at hin
  simp only [lt_min_iff]
  omega

/-- C6: the collision flag.  In every state whose fetch yields a `DXYN`, the
step completes exactly when the sprite rows it draws lie inside the memory
array, and in the machine it returns `VF` is 1 exactly when some sprite bit
that is 1, at row `r` and column offset `k` inside the clipped rectangle,
meets a display cell that was on before the draw, and is 0 exactly when there
is none, whatever `VF` held before. -/
theorem draw_collision_flag (bo : ByteOrder) (c c1 : Chip8) (inst : Inst)
    (hf : chip8_fetch_next_instruction c = .ok (inst, c1))
    (hop : (inst.opcode >>> 12) &&& 0x0F = 0xD) :
    ((∀ r, r < inst.N → c.V inst.Y % 32 + r < 32 → c.I + r < 4096) ↔
      ∃ c', chip8_emulate_instruction bo c = .ok c') ∧
    ∀ c', chip8_emulate_instruction bo c = .ok c' →
      (c'.V 0xF = 1 ↔
        ∃ r k, r < inst.N ∧ k < 8 ∧ c.V inst.X % 64 + k < 64 ∧ c.V inst.Y % 32 + r < 32 ∧
          (c.ram (c.I + r)).testBit (7 - k) = true ∧
          c.display ((c.V inst.Y % 32 + r) * 64 + (c.V inst.X % 64 + k)) = true) ∧
      (c'.V 0xF = 0 ↔
        ¬ ∃ r k, r < inst.N ∧ k < 8 ∧ c.V inst.X % 64 + k < 64 ∧ c.V inst.Y % 32 + r < 32 ∧
          (c.ram (c.I + r)).testBit (7 - k) = true ∧
          c.display ((c.V inst.Y % 32 + r) * 64 + (c.V inst.X % 64 + k)) = true) := by
  refine ⟨draw_defined_iff bo c c1 inst hf hop, ?_⟩
  intro c' hstep
  obtain ⟨_, _, hW1, hW0⟩ := emulate_draw_of_ok bo c c1 c' inst hf hop hstep
  have hiff : (∃ r k, r < inst.N ∧ k < 8 ∧ c.V inst.X % 64 + k < 64 ∧
        c.V inst.Y % 32 + r < 32 ∧ (c.ram (c.I + r)).testBit (7 - k) = true ∧
        c.display ((c.V inst.Y % 32 + r) * 64 + (c.V inst.X % 64 + k)) = true) ↔
      (∃ r k, r < inst.N ∧ c.V inst.Y % 32 + r < 32 ∧ k < 8 ∧ c.V inst.X % 64 + k < 64 ∧
        (c.ram (c.I + r)).testBit (7 - k) = true ∧
        c.display ((c.V inst.Y % 32 + r) * 64 + c.V inst.X % 64 + k) = true) := by
    constructor
    · rintro ⟨r, k, h1, h2, h3, h4, h5, h6⟩
      exact ⟨r, k, h1, h4, h2, h3, h5, by rw [← Nat.add_assoc] at h6; exact h6⟩
    · rintro ⟨r, k, h1, h4, h2, h3, h5, h6⟩
      exact ⟨r, k, h1, h2, h3, h4, h5, by rw [← Nat.add_assoc]; exact h6⟩
  rw [hiff]
  by_cases hc : ∃ r k, r < inst.N ∧ c.V inst.Y % 32 + r < 32 ∧ k < 8 ∧
      c.V inst.X % 64 + k < 64 ∧ (c.ram (c.I + r)).testBit (7 - k) = true ∧
      c.display ((c.V inst.Y % 32 + r) * 64 + c.V inst.X % 64 + k) = true
  · rw [hW1 hc]
    simp only [Function.update_same]
    exact ⟨⟨fun _ => hc, fun _ => trivial⟩, ⟨fun h => absurd h (by decide), fun h => absurd hc h⟩⟩
  · rw [hW0 hc]
    simp only [Function.update_same]
    exact ⟨⟨fun h => absurd h (by decide), fun h => absurd h hc⟩, ⟨fun _ => hc, fun _ => trivial⟩⟩

theorem fetch_decodes_witness :
    chip8_fetch_next_instruction demo_draw =
      .ok ({ opcode := 0xD015, X := 0, Y := 1, N := 5, NN := 0x15, NNN := 0x015 },
           { demo_draw with PC := 0x202 }) :=
  fetch_decodes demo_draw (by decide) (by decide) (by decide)

theorem draw_xor_blit_witness :
    ∃ c', chip8_emulate_instruction .little demo_draw = .ok c' ∧
      c'.display 0 = true ∧ c'.display 3 = true ∧ c'.display 4 = false ∧
      c'.display 64 = true ∧ c'.display 65 = false := by
  obtain ⟨hdef, hcell⟩ := draw_xor_blit .little demo_draw { demo_draw with PC := 0x202 }
    { opcode := 0xD015, X := 0, Y := 1, N := 5, NN := 0x15, NNN := 0x015 } rfl rfl
  obtain ⟨c', h⟩ := hdef.mp (by intro r hr _; show 0 + r < 4096; omega)
  refine ⟨c', h, ?_, ?_, ?_, ?_, ?_⟩
  · exact hcell c' h 0 0 (by decide) (by decide) (by decide) (by decide)
  · exact hcell c' h 0 3 (by decide) (by decide) (by decide) (by decide)
  · exact hcell c' h 0 4 (by decide) (by decide) (by decide) (by decide)
  · exact hcell c' h 1 0 (by decide) (by decide) (by decide) (by decide)
  · exact hcell c' h 1 1 (by decide) (by decide) (by decide) (by decide)

theorem draw_clips_witness :
    ∃ c', chip8_emulate_instruction .little demo_edge = .ok c' ∧
      (∀ row, row < 32 → c'.display (row * 64 + 0) = demo_edge.display (row * 64 + 0)) ∧
      (∀ col, col < 64 → c'.display (0 * 64 + col) = demo_edge.display (0 * 64 + col)) := by
  obtain ⟨hdef, hout⟩ := draw_clips .little demo_edge { demo_edge with PC := 0x202 }
    { opcode := 0xD015, X := 0, Y := 1, N := 5, NN := 0x15, NNN := 0x015 } rfl rfl
  obtain ⟨c', h⟩ := hdef.mp (by intro r hr _; show 0 + r < 4096; omega)
  refine ⟨c', h, ?_, ?_⟩
  · intro row hrow
    exact hout c' h 0 row (by decide) hrow (by
      rintro ⟨h1, _⟩
      exact absurd h1 (by decide))
  · intro col hcol
    exact hout c' h col 0 hcol (by decide) (by
      rintro ⟨_, _, h3, _⟩
      exact absurd h3 (by decide))

theorem draw_collision_flag_witness :
    ∃ c', chip8_emulate_instruction .little demo_hit = .ok c' ∧ c'.V 0xF = 1 := by
  obtain ⟨hdef, hflag⟩ := draw_collision_flag .little demo_hit { demo_hit with PC := 0x202 }
    { opcode := 0xD011, X := 0, Y := 1, N := 1, NN := 0x11, NNN := 0x011 } rfl rfl
  obtain ⟨c', h⟩ := hdef.mp (by
    intro r hr _
    show 0x202 + r < 4096
    simp only [] at hr
    omega)
  exact ⟨c', h, (hflag c' h).1.mpr
    ⟨0, 0, by decide, by decide, by decide, by decide, by decide, by decide⟩⟩

/-- C7: drawing twice restores the display.  If a draw takes `c` to `c'`, and
a second draw is executed in any machine `s` that has the display of `c'`, the
same `I`, the same sprite bytes, the same `N` and the same coordinates
`(V[X] mod 64, V[Y] mod 32)`, then that draw completes and the display it
leaves is the display of `c`. -/
theorem draw_twice_restores_display (bo : ByteOrder) (c c1 c' : Chip8) (inst : Inst)
    (hf : chip8_fetch_next_instruction c = .ok (inst, c1))
    (hop : (inst.opcode >>> 12) &&& 0x0F = 0xD)
    (hstep : chip8_emulate_instruction bo c = .ok c')
    (s s1 : Chip8) (inst2 : Inst)
    (hf2 : chip8_fetch_next_instruction s = .ok (inst2, s1))
    (hop2 : (inst2.opcode >>> 12) &&& 0x0F = 0xD)
    (hN : inst2.N = inst.N)
    (hx : s.V inst2.X % 64 = c.V inst.X % 64)
    (hy : s.V inst2.Y % 32 = c.V inst.Y % 32)
    (hI : s.I = c.I)
    (hram : ∀ r, r < inst.N → s.ram (c.I + r) = c.ram (c.I + r))
    (hdisp : s.display = c'.display) :
    ∃ s', chip8_emulate_instruction bo s = .ok s' ∧ s'.display = c.display := by
  have hmem := emulate_draw_mem bo c c1 c' inst hf hop hstep
  obtain ⟨_, hD, _, _⟩ := emulate_draw_of_ok bo c c1 c' inst hf hop hstep
  obtain ⟨D2, W2, heq2, hD2, _, _⟩ := emulate_draw bo s s1 inst2 hf2 hop2 (by
    intro r hr h32
    rw [hI]
    rw [hN] at hr
    rw [hy] at h32
    exact hmem r hr h32)
  refine ⟨_, heq2, ?_⟩
  show D2 = c.display
  funext idx
  rw [hD2 idx, hdisp, hD idx, hx, hy, hN, hI]
  by_cases hin : c.V inst.Y % 32 ≤ idx / 64 ∧ idx / 64 < c.V inst.Y % 32 + inst.N ∧
      idx / 64 < 32 ∧ c.V inst.X % 64 ≤ idx % 64 ∧ idx % 64 < c.V inst.X % 64 + 8
  · simp only [if_pos hin]
    rw [hram _ (by omega)]
    cases c.display idx <;>
      cases (c.ram (c.I + (idx / 64 - c.V inst.Y % 32))).testBit
        (7 - (idx % 64 - c.V inst.X % 64)) <;> rfl
  · simp only [if_neg hin]

theorem draw_twice_restores_display_witness :
    ∃ c' s', chip8_emulate_instruction .little demo_draw = .ok c' ∧
      chip8_emulate_instruction .little c' = .ok s' ∧ s'.display = demo_draw.display := by
  obtain ⟨D, W, heq, _, hW1, hW0⟩ := emulate_draw .little demo_draw { demo_draw with PC := 0x202 }
    { opcode := 0xD015, X := 0, Y := 1, N := 5, NN := 0x15, NNN := 0x015 } rfl rfl
    (by intro r hr _; show 0 + r < 4096; omega)
  have hW : W 0 = 0 ∧ W 1 = 0 := by
    by_cases hc : ∃ r k, r < 5 ∧ demo_draw.V 1 % 32 + r < 32 ∧ k < 8 ∧
        demo_draw.V 0 % 64 + k < 64 ∧ (demo_draw.ram (demo_draw.I + r)).testBit (7 - k) = true ∧
        demo_draw.display ((demo_draw.V 1 % 32 + r) * 64 + demo_draw.V 0 % 64 + k) = true
    · rw [hW1 hc]
      exact ⟨rfl, rfl⟩
    · rw [hW0 hc]
      exact ⟨rfl, rfl⟩
  obtain ⟨s', h2, hd⟩ := draw_twice_restores_display .little demo_draw
    { demo_draw with PC := 0x202 } _
    { opcode := 0xD015, X := 0, Y := 1, N := 5, NN := 0x15, NNN := 0x015 } rfl rfl heq
    { demo_draw with PC := 0x202, display := D, V := W }
    { demo_draw with PC := 0x204, display := D, V := W }
    { opcode := 0xD015, X := 0, Y := 1, N := 5, NN := 0x15, NNN := 0x015 }
    (by
      simp [chip8_fetch_next_instruction, ram_read, demo_draw, loaded, init_finish, loaded_ram,
        init_ram, CHIP8_ROM_B, CHIP8_RAM_CAPACITY]
      decide)
    rfl rfl
    (by show W 0 % 64 = 0; rw [hW.1])
    (by show W 1 % 32 = 0; rw [hW.2])
    rfl (fun _ _ => rfl) rfl
  exact ⟨_, s', heq, h2, hd⟩

/-! ## Call and return -/

theorem load16_store16 (bo : ByteOrder) (ram : Nat → Nat) (a v : Nat) (hv : v < 65536) :
    load16 bo (store16 bo ram a v) a = v := by
  have hne : a ≠ a + 1 := by omega
  cases bo <;>
    simp only [load16, store16, Function.update_same, Function.update_noteq hne] <;>
    omega

theorem store16_frame (bo : ByteOrder) (ram : Nat → Nat) (a v b : Nat)
    (h0 : b ≠ a) (h1 : b ≠ a + 1) : store16 bo ram a v b = ram b := by
  cases bo <;> simp only [store16, Function.update_noteq h0, Function.update_noteq h1]

theorem emulate_call (bo : ByteOrder) (c c1 : Chip8) (inst : Inst)
    (hf : chip8_fetch_next_instruction c = .ok (inst, c1))
    (hop : (inst.opcode >>> 12) &&& 0x0F = 0x2)
    (h0 : 0 ≤ c.stack) (h1 : c.stack + 1 < 4096) :
    chip8_emulate_instruction bo c =
      .ok { c with
            ram := store16 bo c.ram c.stack.toNat ((c.PC + 2) % 65536)
            PC := inst.NNN
            stack := c.stack + 2 } := by
  obtain ⟨_, hc1, _⟩ := fetch_inv c c1 inst hf
  subst hc1
  have hb : (0 : Int) ≤ c.stack ∧ c.stack + 1 < (CHIP8_RAM_CAPACITY : Nat) := by
    simp only [CHIP8_RAM_CAPACITY]
    exact ⟨h0, by omega⟩
  rw [emulate_of_fetch bo c _ inst hf]
  simp [execute, hop, stack_store, hb]

theorem emulate_return (bo : ByteOrder) (c c1 : Chip8) (inst : Inst)
    (hf : chip8_fetch_next_instruction c = .ok (inst, c1))
    (hop : (inst.opcode >>> 12) &&& 0x0F = 0x0) (hNN : inst.NN = 0xEE)
    (h0 : 0 ≤ c.stack) (h1 : c.stack + 1 < 4096) :
    chip8_emulate_instruction bo c =
      .ok { c with PC := load16 bo c.ram c.stack.toNat, stack := c.stack - 2 } := by
  obtain ⟨_, hc1, _⟩ := fetch_inv c c1 inst hf
  subst hc1
  have hb : (0 : Int) ≤ c.stack ∧ c.stack + 1 < (CHIP8_RAM_CAPACITY : Nat) := by
    simp only [CHIP8_RAM_CAPACITY]
    exact ⟨h0, by omega⟩
  rw [emulate_of_fetch bo c _ inst hf]
  simp [execute, hop, hNN, stack_load, hb]

/-- C9: a call pushes, then jumps.  With the stack cursor inside the stack
region, a `2NNN` fetched from address `PC` leaves `PC = NNN`, the return
address `PC + 2` in the 16-bit slot the cursor pointed at, the cursor one slot
further (depth + 1), every entry pushed before unchanged, and indeed every
byte of memory outside that slot unchanged. -/
theorem call_pushes_return_address (bo : ByteOrder) (c c1 : Chip8) (inst : Inst)
    (hf : chip8_fetch_next_instruction c = .ok (inst, c1))
    (hop : (inst.opcode >>> 12) &&& 0x0F = 0x2)
    (hlo : (CHIP8_STACK_B : Int) ≤ c.stack) (hhi : c.stack ≤ (CHIP8_STACK_E : Int)) :
    ∃ c', chip8_emulate_instruction bo c = .ok c' ∧
      c'.PC = inst.NNN ∧
      stack_load bo c' c.stack = .ok (c.PC + 2) ∧
      c'.stack = c.stack + 2 ∧
      stack_depth c' = stack_depth c + 1 ∧
      (∀ k : Int, 0 ≤ k → k < stack_depth c →
        stack_load bo c' (CHIP8_STACK_B + 2 * k) = stack_load bo c (CHIP8_STACK_B + 2 * k)) ∧
      (∀ a : Nat, (a : Int) ≠ c.stack → (a : Int) ≠ c.stack + 1 → c'.ram a = c.ram a) := by
  simp only [CHIP8_STACK_B, CHIP8_STACK_E, Nat.cast_ofNat] at hlo hhi
  obtain ⟨hpc, _⟩ := fetch_inv c c1 inst hf
  have hpc2 : (c.PC + 2) % 65536 = c.PC + 2 := by omega
  have hframe : ∀ a : Nat, (a : Int) ≠ c.stack → (a : Int) ≠ c.stack + 1 →
      store16 bo c.ram c.stack.toNat (c.PC + 2) a = c.ram a := by
    intro a ha0 ha1
    exact store16_frame bo c.ram _ _ a (by omega) (by omega)
  refine ⟨_, emulate_call bo c c1 inst hf hop (by omega) (by omega), rfl, ?_, rfl, ?_, ?_, ?_⟩
  · have hb : (0 : Int) ≤ c.stack ∧ c.stack + 1 < (CHIP8_RAM_CAPACITY : Nat) := by
      simp only [CHIP8_RAM_CAPACITY, Nat.cast_ofNat]
      omega
    simp only [stack_load, if_pos hb, hpc2]
    rw [load16_store16 bo c.ram _ _ (by omega)]
  · simp only [stack_depth, CHIP8_STACK_B, Nat.cast_ofNat]
    omega
  · intro k hk0 hk
    simp only [stack_depth, CHIP8_STACK_B, Nat.cast_ofNat] at hk
    simp only [stack_load, CHIP8_STACK_B, CHIP8_RAM_CAPACITY, Nat.cast_ofNat, hpc2]
    have hb : (0 : Int) ≤ 3744 + 2 * k ∧ 3744 + 2 * k + 1 < 4096 := by omega
    rw [if_pos hb, if_pos hb]
    have e0 := hframe (3744 + 2 * k).toNat (by omega) (by omega)
    have e1 := hframe ((3744 + 2 * k).toNat + 1) (by omega) (by omega)
    cases bo <;> simp only [load16] at e0 e1 ⊢ <;> rw [e0, e1]
  · intro a ha0 ha1
    simp only [hpc2]
    exact hframe a ha0 ha1

theorem call_pushes_return_address_witness :
    ∃ c', chip8_emulate_instruction .big (loaded blank call_return_rom) = .ok c' ∧
      c'.PC = 0x204 ∧ stack_load .big c' 0xEA0 = .ok 0x202 ∧ stack_depth c' = 1 := by
  obtain ⟨c', h, hpc, hld, _, hdepth, _⟩ := call_pushes_return_address .big
    (loaded blank call_return_rom) { (loaded blank call_return_rom) with PC := 0x202 }
    { opcode := 0x2204, X := 2, Y := 0, N := 4, NN := 0x04, NNN := 0x204 } rfl rfl
    (by decide) (by decide)
  exact ⟨c', h, hpc, hld, hdepth⟩

theorem fetch_at (c : Chip8) (pc hi lo : Nat) (hpc : c.PC = pc) (hb : pc + 1 < 4096)
    (h0 : c.ram pc = hi) (h1 : c.ram (pc + 1) = lo) (hhi : hi < 256) (hlo : lo < 256) :
    chip8_fetch_next_instruction c =
      .ok ({ opcode := hi * 256 + lo, X := hi % 16, Y := lo / 16, N := lo % 16, NN := lo,
             NNN := hi % 16 * 256 + lo },
           { c with PC := pc + 2 }) := by
  subst hpc
  subst h0
  subst h1
  rw [fetch_decodes c (by omega) hhi hlo]
  congr 2
  · congr 1 <;> omega

theorem call_then_return (bo : ByteOrder) (c c1i : Chip8) (inst : Inst)
    (hf : chip8_fetch_next_instruction c = .ok (inst, c1i))
    (hop : (inst.opcode >>> 12) &&& 0x0F = 0x2)
    (hlo : (CHIP8_STACK_B : Int) ≤ c.stack) (hhi : c.stack + 3 ≤ (CHIP8_STACK_E : Int))
    (hN : inst.NNN + 1 < CHIP8_STACK_B)
    (hret0 : c.ram inst.NNN = 0x00) (hret1 : c.ram (inst.NNN + 1) = 0xEE) :
    ∃ c1 c2, chip8_emulate_instruction bo c = .ok c1 ∧
      chip8_emulate_instruction bo c1 = .ok c2 ∧
      c1.PC = inst.NNN ∧ stack_load bo c1 c.stack = .ok (c.PC + 2) ∧
      stack_depth c1 = stack_depth c + 1 ∧
      c2.PC = load16 bo c.ram (c.stack.toNat + 2) ∧ stack_depth c2 = stack_depth c := by
  simp only [CHIP8_STACK_B, CHIP8_STACK_E, Nat.cast_ofNat] at hlo hhi hN
  obtain ⟨hpc, _⟩ := fetch_inv c c1i inst hf
  have hpc2 : (c.PC + 2) % 65536 = c.PC + 2 := by omega
  have h1 := emulate_call bo c c1i inst hf hop (by omega) (by omega)
  rw [hpc2] at h1
  have hf2 := fetch_at
    { c with ram := store16 bo c.ram c.stack.toNat (c.PC + 2), PC := inst.NNN,
             stack := c.stack + 2 }
    inst.NNN 0x00 0xEE rfl (by omega)
    (by
      show store16 bo c.ram c.stack.toNat (c.PC + 2) inst.NNN = 0
      rw [store16_frame bo _ _ _ _ (by omega) (by omega)]
      exact hret0)
    (by
      show store16 bo c.ram c.stack.toNat (c.PC + 2) (inst.NNN + 1) = 0xEE
      rw [store16_frame bo _ _ _ _ (by omega) (by omega)]
      exact hret1)
    (by decide) (by decide)
  have h2 := emulate_return bo _ _ _ hf2 (by decide) rfl
    (by show (0 : Int) ≤ c.stack + 2; omega) (by show c.stack + 2 + 1 < 4096; omega)
  have hb : (0 : Int) ≤ c.stack ∧ c.stack + 1 < (CHIP8_RAM_CAPACITY : Nat) := by
    simp only [CHIP8_RAM_CAPACITY, Nat.cast_ofNat]
    omega
  refine ⟨_, _, h1, h2, rfl, ?_, ?_, ?_, ?_⟩
  · simp only [stack_load, if_pos hb]
    rw [load16_store16 bo c.ram _ _ (by omega)]
  · simp only [stack_depth, CHIP8_STACK_B, Nat.cast_ofNat]
    omega
  · show load16 bo (store16 bo c.ram c.stack.toNat (c.PC + 2)) (c.stack + 2).toNat = _
    have e : (c.stack + 2).toNat = c.stack.toNat + 2 := by omega
    rw [e]
    cases bo <;>
      simp only [load16] <;>
      rw [store16_frame _ _ _ _ _ (by omega) (by omega),
        store16_frame _ _ _ _ _ (by omega) (by omega)]
  · simp only [stack_depth, CHIP8_STACK_B, Nat.cast_ofNat]
    omega

/-- C8 (defect in `case 0x0`, `NN == 0xEE`): the return reads the slot AT the
stack cursor and only then moves the cursor down, although the call has left
the cursor one slot above the address it saved.  On the program `2204 0000
00EE`, loaded into any machine, the call at `0x200` saves the return address
`0x202` and jumps to `0x204`; the return there sets `PC` to the content of the
empty slot above, 0, not to `0x202`.  The depth is back at 0. -/
theorem call_return_round_trip_fails (bo : ByteOrder) (c0 : Chip8) :
    ∃ c1 c2, chip8_emulate_instruction bo (loaded c0 call_return_rom) = .ok c1 ∧
      chip8_emulate_instruction bo c1 = .ok c2 ∧
      c1.PC = 0x204 ∧ stack_load bo c1 0xEA0 = .ok 0x202 ∧ stack_depth c1 = 1 ∧
      c2.PC = 0 ∧ c2.PC ≠ 0x202 ∧ stack_depth c2 = 0 := by
  have hf1 := fetch_at (loaded c0 call_return_rom) 0x200 0x22 0x04 rfl (by decide) rfl rfl
    (by decide) (by decide)
  obtain ⟨c1, c2, h1, h2, hpc1, hld, hd1, hpc2, hd2⟩ :=
    call_then_return bo (loaded c0 call_return_rom) _ _ hf1 (by decide)
      (by show ((CHIP8_STACK_B : Nat) : Int) ≤ (CHIP8_STACK_B : Nat); exact le_refl _)
      (by show (((CHIP8_STACK_B : Nat) : Int)) + 3 ≤ (CHIP8_STACK_E : Nat); decide)
      (by decide) rfl rfl
  have hz : load16 bo (loaded c0 call_return_rom).ram
      ((loaded c0 call_return_rom).stack.toNat + 2) = 0 := by
    cases bo <;> rfl
  rw [hz] at hpc2
  refine ⟨c1, c2, h1, h2, hpc1, hld, hd1, hpc2, ?_, hd2⟩
  rw [hpc2]
  decide


/-! ## The remaining instructions of the end-to-end program -/

theorem emulate_clear (bo : ByteOrder) (c c1 : Chip8) (inst : Inst)
    (hf : chip8_fetch_next_instruction c = .ok (inst, c1))
    (hop : (inst.opcode >>> 12) &&& 0x0F = 0x0) (hNN : inst.NN = 0xE0) :
    chip8_emulate_instruction bo c =
      .ok { c1 with display := fun i => if i < DISPLAY_CELLS then false else c1.display i } := by
  rw [emulate_of_fetch bo c c1 inst hf]
  simp [execute, hop, hNN]

theorem emulate_set (bo : ByteOrder) (c c1 : Chip8) (inst : Inst)
    (hf : chip8_fetch_next_instruction c = .ok (inst, c1))
    (hop : (inst.opcode >>> 12) &&& 0x0F = 0x6) :
    chip8_emulate_instruction bo c =
      .ok { c1 with V := Function.update c1.V inst.X inst.NN } := by
  obtain ⟨_, _, _, hX, _⟩ := fetch_inv c c1 inst hf
  have hX16 : inst.X < 16 := by omega
  rw [emulate_of_fetch bo c c1 inst hf]
  simp [execute, hop, reg_write, hX16]

theorem emulate_set_index (bo : ByteOrder) (c c1 : Chip8) (inst : Inst)
    (hf : chip8_fetch_next_instruction c = .ok (inst, c1))
    (hop : (inst.opcode >>> 12) &&& 0x0F = 0xA) :
    chip8_emulate_instruction bo c = .ok { c1 with I := inst.NNN } := by
  rw [emulate_of_fetch bo c c1 inst hf]
  simp [execute, hop]

theorem run_succ (bo : ByteOrder) (n : Nat) (c c1 : Chip8)
    (h : chip8_emulate_instruction bo c = .ok c1) : run bo (n + 1) c = run bo n c1 := by
  simp only [run, h]

theorem demo_program_runs (bo : ByteOrder) (c : Chip8) (hpc : c.PC = 0x200)
    (hram : ∀ i, i < 10 → c.ram (0x200 + i) = demo_rom.getD i 0) :
    ∃ c5, run bo 5 c = .ok c5 ∧
      c5.V 0 = 5 ∧ c5.V 1 = 10 ∧ c5.I = 0x200 ∧ c5.PC = 0x20A ∧ c5.V 0xF = 0 ∧
      ∀ col row, col < 64 → row < 32 →
        (c5.display (row * 64 + col) = true ↔
          ∃ r k, r < 5 ∧ k < 8 ∧ col = 5 + k ∧ row = 10 + r ∧
            (demo_rom.getD r 0).testBit (7 - k) = true) := by
  -- 0x200: 00E0, clear the screen
  have hf1 := fetch_at c 0x200 0x00 0xE0 hpc (by decide) (hram 0 (by decide))
    (hram 1 (by decide)) (by decide) (by decide)
  obtain ⟨s1, h1, p1, r1, d1, v1⟩ : ∃ s, chip8_emulate_instruction bo c = .ok s ∧
      s.PC = 0x202 ∧ s.ram = c.ram ∧
      (∀ i, i < 2048 → s.display i = false) ∧ s.stack = c.stack :=
    ⟨_, emulate_clear bo c _ _ hf1 (by decide) rfl, rfl, rfl,
      fun i hi => if_pos hi, rfl⟩
  -- 0x202: 6005, V0 = 5
  have hf2 := fetch_at s1 0x202 0x60 0x05 p1 (by decide) (by rw [r1]; exact hram 2 (by decide))
    (by rw [r1]; exact hram 3 (by decide)) (by decide) (by decide)
  obtain ⟨s2, h2, p2, r2, d2, v2⟩ : ∃ s, chip8_emulate_instruction bo s1 = .ok s ∧
      s.PC = 0x204 ∧ s.ram = s1.ram ∧ s.display = s1.display ∧ s.V 0 = 5 :=
    ⟨_, emulate_set bo s1 _ _ hf2 (by decide), rfl, rfl, rfl, rfl⟩
  -- 0x204: 610A, V1 = 10
  have hf3 := fetch_at s2 0x204 0x61 0x0A p2 (by decide)
    (by rw [r2, r1]; exact hram 4 (by decide))
    (by rw [r2, r1]; exact hram 5 (by decide)) (by decide) (by decide)
  obtain ⟨s3, h3, p3, r3, d3, v3, w3⟩ : ∃ s, chip8_emulate_instruction bo s2 = .ok s ∧
      s.PC = 0x206 ∧ s.ram = s2.ram ∧ s.display = s2.display ∧ s.V 0 = s2.V 0 ∧ s.V 1 = 10 :=
    ⟨_, emulate_set bo s2 _ _ hf3 (by decide), rfl, rfl, rfl, rfl, rfl⟩
  -- 0x206: A200, I = 0x200
  have hf4 := fetch_at s3 0x206 0xA2 0x00 p3 (by decide)
    (by rw [r3, r2, r1]; exact hram 6 (by decide))
    (by rw [r3, r2, r1]; exact hram 7 (by decide)) (by decide) (by decide)
  obtain ⟨s4, h4, p4, r4, d4, v4, i4⟩ : ∃ s, chip8_emulate_instruction bo s3 = .ok s ∧
      s.PC = 0x208 ∧ s.ram = s3.ram ∧ s.display = s3.display ∧ s.V = s3.V ∧ s.I = 0x200 :=
    ⟨_, emulate_set_index bo s3 _ _ hf4 (by decide), rfl, rfl, rfl, rfl, rfl⟩
  -- 0x208: D015, draw
  have hf5 := fetch_at s4 0x208 0xD0 0x15 p4 (by decide)
    (by rw [r4, r3, r2, r1]; exact hram 8 (by decide))
    (by rw [r4, r3, r2, r1]; exact hram 9 (by decide)) (by decide) (by decide)
  have hx0 : s4.V 0 % 64 = 5 := by rw [v4, v3, v2]
  have hy0 : s4.V 1 % 32 = 10 := by rw [v4, w3]
  obtain ⟨D, W, h5, hD, hW1, hW0⟩ := emulate_draw bo s4 _ _ hf5 (by decide) (by
    intro r hr _
    rw [i4]
    have : r < 5 := hr
    omega)
  simp only [show (0xD0 % 16 : Nat) = 0 from rfl, show (0x15 / 16 : Nat) = 1 from rfl,
    show (0x15 % 16 : Nat) = 5 from rfl, hx0, hy0, i4] at hD hW1 hW0
  have hdisp : ∀ i, i < 2048 → s4.display i = false := by
    intro i hi
    rw [d4, d3, d2]
    exact d1 i hi
  have hrom : ∀ r, r < 5 → s4.ram (512 + r) = demo_rom.getD r 0 := by
    intro r hr
    rw [r4, r3, r2, r1]
    exact hram r (by omega)
  have hWeq : W = Function.update s4.V 15 0 := by
    apply hW0
    rintro ⟨r, k, hr, _, hk, _, _, hd⟩
    rw [hdisp _ (by omega)] at hd
    cases hd
  refine ⟨{ s4 with PC := (s4.PC + 2) % 65536, display := D, V := W },
    ?_, ?_, ?_, ?_, ?_, ?_, ?_⟩
  · rw [run_succ bo 4 c s1 h1, run_succ bo 3 s1 s2 h2, run_succ bo 2 s2 s3 h3,
      run_succ bo 1 s3 s4 h4, run_succ bo 0 s4 _ h5]
    rfl
  · show W 0 = 5
    rw [hWeq, Function.update_noteq (by decide), v4, v3, v2]
  · show W 1 = 10
    rw [hWeq, Function.update_noteq (by decide), v4, w3]
  · exact i4
  · show (s4.PC + 2) % 65536 = 0x20A
    rw [p4]
  · show W 15 = 0
    rw [hWeq, Function.update_same]
  · intro col row hcol hrow
    show D (row * 64 + col) = true ↔ _
    have e1 : (row * 64 + col) / 64 = row := by omega
    have e2 : (row * 64 + col) % 64 = col := by omega
    rw [hD, e1, e2, hdisp _ (by omega)]
    constructor
    · intro h
      by_cases hin : 10 ≤ row ∧ row < 10 + 5 ∧ row < 32 ∧ 5 ≤ col ∧ col < 5 + 8
      · rw [if_pos hin, Bool.false_xor, hrom _ (by omega)] at h
        exact ⟨row - 10, col - 5, by omega, by omega, by omega, by omega, h⟩
      · rw [if_neg hin] at h
        cases h
    · rintro ⟨r, k, hr, hk, hc, hrw, hbit⟩
      subst hc
      subst hrw
      rw [if_pos (by omega), Bool.false_xor, hrom _ (by omega)]
      have e3 : 10 + r - 10 = r := by omega
      have e4 : 5 + k - 5 = k := by omega
      rw [e3, e4]
      exact hbit

/-- C10: end to end.  Both front ends load the ROM `00E0 6005 610A A200 D015`
into any machine, and five instructions later, whatever the display and the
registers held before, `V0 = 5`, `V1 = 10`, `I = 0x200`, `PC = 0x20A`,
`VF = 0`, and the cell `(col, row)` of the display is on exactly when it is
`(5 + k, 10 + r)` with `r < 5`, `k < 8` and bit `7 - k` of the `r`-th ROM byte
set. -/
theorem end_to_end (bo : ByteOrder) (c0 : Chip8) :
    Raylib.chip8_init c0 (some demo_rom) = .ok (true, loaded c0 demo_rom) ∧
    Sdl.chip8_init c0 (some demo_rom) = .ok (true, loaded c0 demo_rom) ∧
    ∃ c5, run bo 5 (loaded c0 demo_rom) = .ok c5 ∧
      c5.V 0 = 5 ∧ c5.V 1 = 10 ∧ c5.I = 0x200 ∧ c5.PC = 0x20A ∧ c5.V 0xF = 0 ∧
      ∀ col row, col < 64 → row < 32 →
        (c5.display (row * 64 + col) = true ↔
          ∃ r k, r < 5 ∧ k < 8 ∧ col = 5 + k ∧ row = 10 + r ∧
            (demo_rom.getD r 0).testBit (7 - k) = true) :=
  ⟨raylib_init_loads c0 demo_rom (by decide),
   sdl_init_loads c0 demo_rom (by decide) (by decide),
   demo_program_runs bo (loaded c0 demo_rom) rfl
     (fun i hi => loaded_ram_rom c0 demo_rom i hi)⟩


/-! ## The machine after initialisation -/

theorem raylib_init_inv (c c' : Chip8) (file : Option (List Nat))
    (h : Raylib.chip8_init c file = .ok (true, c')) :
    ∃ rom, file = some rom ∧ rom.length ≤ 3584 ∧ c' = loaded c rom := by
  cases file with
  | none =>
    simp [Raylib.chip8_init] at h
  | some rom =>
    by_cases hlen : rom.length ≤ 3584
    · rw [raylib_init_loads c rom hlen] at h
      simp only [Except.ok.injEq, Prod.mk.injEq, true_and] at h
      exact ⟨rom, rfl, hlen, h.symm⟩
    · have hcap : rom.length > CHIP8_RAM_CAPACITY - CHIP8_ROM_B := by
        simp only [CHIP8_RAM_CAPACITY, CHIP8_ROM_B]; omega
      simp [Raylib.chip8_init, hcap] at h

theorem sdl_init_inv (c c' : Chip8) (file : Option (List Nat))
    (h : Sdl.chip8_init c file = .ok (true, c')) :
    ∃ rom, file = some rom ∧ 1 ≤ rom.length ∧ rom.length ≤ 3584 ∧ c' = loaded c rom := by
  cases file with
  | none =>
    simp [Sdl.chip8_init] at h
  | some rom =>
    by_cases hlen : rom.length ≤ 3584
    · by_cases h0 : 1 ≤ rom.length
      · rw [sdl_init_loads c rom h0 hlen] at h
        simp only [Except.ok.injEq, Prod.mk.injEq, true_and] at h
        exact ⟨rom, rfl, h0, hlen, h.symm⟩
      · have hz : rom.length = 0 := by omega
        simp [Sdl.chip8_init, Sdl.fread, hz] at h
    · have hcap : rom.length > CHIP8_RAM_CAPACITY - CHIP8_ROM_B := by
        simp only [CHIP8_RAM_CAPACITY, CHIP8_ROM_B]; omega
      simp [Sdl.chip8_init, hcap] at h

theorem loaded_ram_font (c : Chip8) (rom : List Nat) (a : Nat) (ha : a < 80) :
    loaded_ram c rom a = fonts.getD a 0 := by
  have h1 : ¬ (CHIP8_ROM_B ≤ a ∧ a < CHIP8_ROM_B + rom.length) := by
    simp only [CHIP8_ROM_B]; omega
  have h2 : a < fonts.length := ha
  simp only [loaded_ram, if_neg h1, init_ram, if_pos h2]

theorem loaded_ram_zero (c : Chip8) (rom : List Nat) (a : Nat) (ha : a < 4096) (hf : 80 ≤ a)
    (hr : ¬ (0x200 ≤ a ∧ a < 0x200 + rom.length)) : loaded_ram c rom a = 0 := by
  have h1 : ¬ (CHIP8_ROM_B ≤ a ∧ a < CHIP8_ROM_B + rom.length) := hr
  have h2 : ¬ a < fonts.length := by
    have : fonts.length = 80 := rfl
    omega
  have h3 : a < CHIP8_RAM_CAPACITY := ha
  simp only [loaded_ram, if_neg h1, init_ram, if_neg h2, if_pos h3]

/-- C11 (defect in `chip8_init`): the initialiser clears `ram` only.  On a
successful load, in either front end, the registers, `I`, the timers, the
keypad and the display are what the machine structure held beforehand (for the
machine `dirty`: `V0 = 9`, `I = 0x123`, timers 7 and 8, cell 0 lit, key 0
down); only the run state (Running), `PC = 0x200` and the stack cursor
(depth 0) are set. -/
theorem init_keeps_stale_fields (c : Chip8) :
    Raylib.chip8_init c (some demo_rom) = .ok (true, loaded c demo_rom) ∧
    Sdl.chip8_init c (some demo_rom) = .ok (true, loaded c demo_rom) ∧
    (loaded c demo_rom).V = c.V ∧ (loaded c demo_rom).I = c.I ∧
    (loaded c demo_rom).delay_timer = c.delay_timer ∧
    (loaded c demo_rom).sound_timer = c.sound_timer ∧
    (loaded c demo_rom).keypad = c.keypad ∧ (loaded c demo_rom).display = c.display ∧
    (loaded c demo_rom).state = .EMULATOR_RUNNING ∧ (loaded c demo_rom).PC = 0x200 ∧
    stack_depth (loaded c demo_rom) = 0 ∧
    (loaded dirty demo_rom).V 0 = 9 ∧ (loaded dirty demo_rom).I = 0x123 ∧
    (loaded dirty demo_rom).delay_timer = 7 ∧ (loaded dirty demo_rom).sound_timer = 8 ∧
    (loaded dirty demo_rom).keypad 0 = true ∧ (loaded dirty demo_rom).display 0 = true :=
  ⟨raylib_init_loads c demo_rom (by decide), sdl_init_loads c demo_rom (by decide) (by decide),
   rfl, rfl, rfl, rfl, rfl, rfl, rfl, rfl,
   by simp [stack_depth, loaded, init_finish], rfl, rfl, rfl, rfl, rfl, rfl⟩

/-- C12: memory after a successful `chip8_init` (either front end).  The
call succeeded on a ROM of some length `s ≤ 3584`; bytes `[0, 0x50)` are the
font table, the five bytes of digit `d` at `5d .. 5d + 4` (digit 0:
`F0 90 90 90 F0`); bytes `[0x200, 0x200 + s)` are the ROM; every other byte
below 4096 is 0. -/
theorem init_memory_layout (c c' : Chip8) (file : Option (List Nat))
    (h : Raylib.chip8_init c file = .ok (true, c') ∨ Sdl.chip8_init c file = .ok (true, c')) :
    ∃ rom, file = some rom ∧ rom.length ≤ 3584 ∧
      (∀ a, a < 0x50 → c'.ram a = fonts.getD a 0) ∧
      (∀ d j, d < 16 → j < 5 → c'.ram (5 * d + j) = fonts.getD (5 * d + j) 0) ∧
      (c'.ram 0 = 0xF0 ∧ c'.ram 1 = 0x90 ∧ c'.ram 2 = 0x90 ∧ c'.ram 3 = 0x90 ∧
        c'.ram 4 = 0xF0) ∧
      (∀ i, i < rom.length → c'.ram (0x200 + i) = rom.getD i 0) ∧
      (∀ a, a < 4096 → 0x50 ≤ a → ¬ (0x200 ≤ a ∧ a < 0x200 + rom.length) → c'.ram a = 0) := by
  have key : ∃ rom, file = some rom ∧ rom.length ≤ 3584 ∧ c' = loaded c rom := by
    rcases h with h | h
    · exact raylib_init_inv c c' file h
    · obtain ⟨rom, h1, _, h2, h3⟩ := sdl_init_inv c c' file h
      exact ⟨rom, h1, h2, h3⟩
  obtain ⟨rom, hfile, hlen, hc'⟩ := key
  subst hc'
  refine ⟨rom, hfile, hlen, ?_, ?_, ?_, ?_, ?_⟩
  · intro a ha
    exact loaded_ram_font c rom a ha
  · intro d j hd hj
    exact loaded_ram_font c rom _ (by omega)
  · exact ⟨loaded_ram_font c rom 0 (by decide), loaded_ram_font c rom 1 (by decide),
      loaded_ram_font c rom 2 (by decide), loaded_ram_font c rom 3 (by decide),
      loaded_ram_font c rom 4 (by decide)⟩
  · intro i hi
    exact loaded_ram_rom c rom i hi
  · intro a ha hf hr
    exact loaded_ram_zero c rom a ha hf hr

theorem init_memory_layout_witness :
    ∃ rom, some demo_rom = some rom ∧ rom.length ≤ 3584 ∧
      (∀ a, a < 0x50 → (loaded blank demo_rom).ram a = fonts.getD a 0) ∧
      (∀ d j, d < 16 → j < 5 →
        (loaded blank demo_rom).ram (5 * d + j) = fonts.getD (5 * d + j) 0) ∧
      ((loaded blank demo_rom).ram 0 = 0xF0 ∧ (loaded blank demo_rom).ram 1 = 0x90 ∧
        (loaded blank demo_rom).ram 2 = 0x90 ∧ (loaded blank demo_rom).ram 3 = 0x90 ∧
        (loaded blank demo_rom).ram 4 = 0xF0) ∧
      (∀ i, i < rom.length → (loaded blank demo_rom).ram (0x200 + i) = rom.getD i 0) ∧
      (∀ a, a < 4096 → 0x50 ≤ a → ¬ (0x200 ≤ a ∧ a < 0x200 + rom.length) →
        (loaded blank demo_rom).ram a = 0) :=
  init_memory_layout blank (loaded blank demo_rom) (some demo_rom)
    (Or.inl (raylib_init_loads blank demo_rom (by decide)))


/-! ## Display indices -/

theorem draw_rows_fault (x : Nat) (hx : x < 64) (n : Nat) :
    ∀ (i y : Nat) (c : Chip8) (e : Fault), y < 32 →
      draw_rows x n i y c = .error e → e = .ram_oob := by
  induction n with
  | zero =>
    intro i y c e _ h
    simp [draw_rows] at h
  | succ n ih =>
    intro i y c e hy h
    by_cases hm : c.I + i < 4096
    · rw [draw_rows_succ x n i y c hy hm] at h
      obtain ⟨D1, W1, heq1, _⟩ := draw_bits_spec (c.ram (c.I + i)) y hy 8 x c hx
      rw [heq1] at h
      simp only [] at h
      by_cases hedge : y + 1 ≥ 32
      · rw [if_pos hedge] at h
        cases h
      · rw [if_neg hedge] at h
        exact ih (i + 1) (y + 1) _ e (by omega) h
    · have hm' : ¬ c.I + i < CHIP8_RAM_CAPACITY := hm
      simp only [draw_rows, ram_read, if_neg hm', Except.error.injEq] at h
      exact h.symm

theorem draw_sprite_fault (inst : Inst) (c : Chip8) (e : Fault)
    (h : draw_sprite inst c = .error e) : e ≠ .display_oob := by
  have h15 : (15 : Nat) < 16 := by decide
  by_cases hX : inst.X < 16
  · by_cases hY : inst.Y < 16
    · simp only [draw_sprite, reg_read, if_pos hX, if_pos hY, reg_write, if_pos h15,
        CHIP8_DEFAULT_WINDOW_WIDTH, CHIP8_DEFAULT_WINDOW_HEIGHT] at h
      have := draw_rows_fault (c.V inst.X % 64) (Nat.mod_lt _ (by decide)) inst.N 0
        (c.V inst.Y % 32) _ e (Nat.mod_lt _ (by decide)) h
      rw [this]
      decide
    · simp only [draw_sprite, reg_read, if_pos hX, if_neg hY, Except.error.injEq] at h
      rw [← h]
      decide
  · simp only [draw_sprite, reg_read, if_neg hX, Except.error.injEq] at h
    rw [← h]
    decide

theorem fetch_fault (c : Chip8) (e : Fault)
    (h : chip8_fetch_next_instruction c = .error e) : e = .ram_oob := by
  unfold chip8_fetch_next_instruction ram_read at h
  by_cases h0 : c.PC < CHIP8_RAM_CAPACITY
  · by_cases h1 : c.PC + 1 < CHIP8_RAM_CAPACITY
    · simp [if_pos h0, if_pos h1] at h
    · simp only [if_pos h0, if_neg h1, Except.error.injEq] at h
      exact h.symm
  · simp only [if_neg h0, Except.error.injEq] at h
    exact h.symm

theorem stack_load_fault (bo : ByteOrder) (c : Chip8) (p : Int) (e : Fault)
    (h : stack_load bo c p = .error e) : e = .ram_oob := by
  unfold stack_load at h
  split at h
  · cases h
  · simp only [Except.error.injEq] at h
    exact h.symm

theorem stack_store_fault (bo : ByteOrder) (c : Chip8) (p : Int) (v : Nat) (e : Fault)
    (h : stack_store bo c p v = .error e) : e = .ram_oob := by
  unfold stack_store at h
  split at h
  · cases h
  · simp only [Except.error.injEq] at h
    exact h.symm

theorem reg_read_fault (c : Chip8) (i : Nat) (e : Fault)
    (h : reg_read c i = .error e) : e = .reg_oob := by
  unfold reg_read at h
  split at h
  · cases h
  · simp only [Except.error.injEq] at h
    exact h.symm

theorem reg_write_fault (c : Chip8) (i v : Nat) (e : Fault)
    (h : reg_write c i v = .error e) : e = .reg_oob := by
  unfold reg_write at h
  split at h
  · cases h
  · simp only [Except.error.injEq] at h
    exact h.symm

theorem execute_fault (bo : ByteOrder) (inst : Inst) (c : Chip8) (e : Fault)
    (h : execute bo inst c = .error e) : e ≠ .display_oob := by
  unfold execute at h
  simp only [] at h
  by_cases h0 : (inst.opcode >>> 12) &&& 0x0F = 0x0
  · rw [if_pos h0] at h
    by_cases hE0 : inst.NN = 0xE0
    · rw [if_pos hE0] at h
      cases h
    · rw [if_neg hE0] at h
      by_cases hEE : inst.NN = 0xEE
      · rw [if_pos hEE] at h
        cases hl : stack_load bo c c.stack with
        | error e' =>
          rw [hl] at h
          simp only [Except.error.injEq] at h
          rw [← h, stack_load_fault bo c _ e' hl]
          decide
        | ok v =>
          rw [hl] at h
          cases h
      · rw [if_neg hEE] at h
        cases h
  · rw [if_neg h0] at h
    by_cases h1 : (inst.opcode >>> 12) &&& 0x0F = 0x1
    · rw [if_pos h1] at h
      cases h
    · rw [if_neg h1] at h
      by_cases h2 : (inst.opcode >>> 12) &&& 0x0F = 0x2
      · rw [if_pos h2] at h
        cases hl : stack_store bo c c.stack c.PC with
        | error e' =>
          rw [hl] at h
          simp only [Except.error.injEq] at h
          rw [← h, stack_store_fault bo c _ _ e' hl]
          decide
        | ok v =>
          rw [hl] at h
          cases h
      · rw [if_neg h2] at h
        by_cases h6 : (inst.opcode >>> 12) &&& 0x0F = 0x6
        · rw [if_pos h6] at h
          rw [reg_write_fault c _ _ e h]
          decide
        · rw [if_neg h6] at h
          by_cases h7 : (inst.opcode >>> 12) &&& 0x0F = 0x7
          · rw [if_pos h7] at h
            cases hl : reg_read c inst.X with
            | error e' =>
              rw [hl] at h
              simp only [Except.error.injEq] at h
              rw [← h, reg_read_fault c _ e' hl]
              decide
            | ok v =>
              rw [hl] at h
              rw [reg_write_fault c _ _ e h]
              decide
          · rw [if_neg h7] at h
            by_cases hA : (inst.opcode >>> 12) &&& 0x0F = 0xA
            · rw [if_pos hA] at h
              cases h
            · rw [if_neg hA] at h
              by_cases hD : (inst.opcode >>> 12) &&& 0x0F = 0xD
              · rw [if_pos hD] at h
                exact draw_sprite_fault inst c e h
              · rw [if_neg hD] at h
                cases h

/-- C13: no display index outside the grid.  Every access to `display` in the
model is checked against `DISPLAY_CELLS = 2048`, and neither the body of the
draw instruction (for any decoded fields, registers, `I` and `N`) nor a whole
step ever reports an out-of-range display index. -/
theorem display_index_in_range (bo : ByteOrder) (c : Chip8) (inst : Inst) :
    draw_sprite inst c ≠ .error .display_oob ∧
    chip8_emulate_instruction bo c ≠ .error .display_oob := by
  constructor
  · intro h
    exact draw_sprite_fault inst c _ h rfl
  · intro h
    unfold chip8_emulate_instruction at h
    cases hf : chip8_fetch_next_instruction c with
    | error e =>
      rw [hf] at h
      simp only [Except.error.injEq] at h
      have := fetch_fault c e hf
      rw [this] at h
      cases h
    | ok p =>
      obtain ⟨inst1, c1⟩ := p
      rw [hf] at h
      exact execute_fault bo inst1 c1 _ h rfl


/-! ## Jump, add, unimplemented opcodes; the effect of a step on `PC` and the cursor -/

theorem emulate_jump (bo : ByteOrder) (c c1 : Chip8) (inst : Inst)
    (hf : chip8_fetch_next_instruction c = .ok (inst, c1))
    (hop : (inst.opcode >>> 12) &&& 0x0F = 0x1) :
    chip8_emulate_instruction bo c = .ok { c with PC := inst.NNN } := by
  obtain ⟨_, hc1, _⟩ := fetch_inv c c1 inst hf
  subst hc1
  rw [emulate_of_fetch bo c _ inst hf]
  simp [execute, hop]

theorem emulate_add (bo : ByteOrder) (c c1 : Chip8) (inst : Inst)
    (hf : chip8_fetch_next_instruction c = .ok (inst, c1))
    (hop : (inst.opcode >>> 12) &&& 0x0F = 0x7) :
    chip8_emulate_instruction bo c =
      .ok { c1 with V := Function.update c1.V inst.X ((c1.V inst.X + inst.NN) % 256) } := by
  obtain ⟨_, _, _, hX, _⟩ := fetch_inv c c1 inst hf
  have hX16 : inst.X < 16 := by omega
  rw [emulate_of_fetch bo c c1 inst hf]
  simp [execute, hop, reg_read, reg_write, hX16]

theorem emulate_noop (bo : ByteOrder) (c c1 : Chip8) (inst : Inst)
    (hf : chip8_fetch_next_instruction c = .ok (inst, c1))
    (hcase : ((inst.opcode >>> 12) &&& 0x0F = 0x0 ∧ inst.NN ≠ 0xE0 ∧ inst.NN ≠ 0xEE) ∨
      ((inst.opcode >>> 12) &&& 0x0F ≠ 0x0 ∧ (inst.opcode >>> 12) &&& 0x0F ≠ 0x1 ∧
       (inst.opcode >>> 12) &&& 0x0F ≠ 0x2 ∧ (inst.opcode >>> 12) &&& 0x0F ≠ 0x6 ∧
       (inst.opcode >>> 12) &&& 0x0F ≠ 0x7 ∧ (inst.opcode >>> 12) &&& 0x0F ≠ 0xA ∧
       (inst.opcode >>> 12) &&& 0x0F ≠ 0xD)) :
    chip8_emulate_instruction bo c = .ok c1 := by
  rw [emulate_of_fetch bo c c1 inst hf]
  rcases hcase with ⟨h0, h1, h2⟩ | ⟨h0, h1, h2, h6, h7, hA, hD⟩
  · simp [execute, h0, h1, h2]
  · simp [execute, h0, h1, h2, h6, h7, hA, hD]

theorem stack_load_ok (bo : ByteOrder) (c : Chip8) (p : Int) (v : Nat)
    (h : stack_load bo c p = .ok v) : v = load16 bo c.ram p.toNat := by
  unfold stack_load at h
  split at h
  · injection h with h
    exact h.symm
  · cases h

theorem stack_store_ok (bo : ByteOrder) (c c2 : Chip8) (p : Int) (v : Nat)
    (h : stack_store bo c p v = .ok c2) :
    c2 = { c with ram := store16 bo c.ram p.toNat v } := by
  unfold stack_store at h
  split at h
  · injection h with h
    exact h.symm
  · cases h

theorem reg_read_ok (c : Chip8) (i v : Nat) (h : reg_read c i = .ok v) : v = c.V i := by
  unfold reg_read at h
  split at h
  · injection h with h
    exact h.symm
  · cases h

theorem reg_write_ok (c c2 : Chip8) (i v : Nat) (h : reg_write c i v = .ok c2) :
    c2 = { c with V := Function.update c.V i v } := by
  unfold reg_write at h
  split at h
  · injection h with h
    exact h.symm
  · cases h

theorem step_cursor (bo : ByteOrder) (c c1 c' : Chip8) (inst : Inst)
    (hf : chip8_fetch_next_instruction c = .ok (inst, c1))
    (hstep : chip8_emulate_instruction bo c = .ok c') :
    c'.stack =
      (if (inst.opcode >>> 12) &&& 0x0F = 0x2 then c.stack + 2
       else if (inst.opcode >>> 12) &&& 0x0F = 0x0 ∧ inst.NN = 0xEE then c.stack - 2
       else c.stack) ∧
    c'.PC =
      (if (inst.opcode >>> 12) &&& 0x0F = 0x1 ∨ (inst.opcode >>> 12) &&& 0x0F = 0x2 then inst.NNN
       else if (inst.opcode >>> 12) &&& 0x0F = 0x0 ∧ inst.NN = 0xEE then
         load16 bo c.ram c.stack.toNat
       else (c.PC + 2) % 65536) := by
  obtain ⟨_, hc1, _⟩ := fetch_inv c c1 inst hf
  by_cases hD : (inst.opcode >>> 12) &&& 0x0F = 0xD
  · obtain ⟨hc', _⟩ := emulate_draw_of_ok bo c c1 c' inst hf hD hstep
    rw [hc']
    simp [hD]
  · rw [emulate_of_fetch bo c c1 inst hf] at hstep
    subst hc1
    unfold execute at hstep
    simp only [] at hstep
    by_cases h0 : (inst.opcode >>> 12) &&& 0x0F = 0x0
    · rw [if_pos h0] at hstep
      by_cases hE0 : inst.NN = 0xE0
      · rw [if_pos hE0] at hstep
        injection hstep with hstep
        subst hstep
        simp [h0, hE0]
      · rw [if_neg hE0] at hstep
        by_cases hEE : inst.NN = 0xEE
        · rw [if_pos hEE] at hstep
          cases hl : stack_load bo { c with PC := (c.PC + 2) % 65536 } c.stack with
          | error e =>
            rw [hl] at hstep
            cases hstep
          | ok v =>
            rw [hl] at hstep
            injection hstep with hstep
            subst hstep
            have hv := stack_load_ok bo _ _ v hl
            simp [h0, hEE, hv]
        · rw [if_neg hEE] at hstep
          injection hstep with hstep
          subst hstep
          simp [h0, hEE]
    · rw [if_neg h0] at hstep
      by_cases h1 : (inst.opcode >>> 12) &&& 0x0F = 0x1
      · rw [if_pos h1] at hstep
        injection hstep with hstep
        subst hstep
        simp [h1]
      · rw [if_neg h1] at hstep
        by_cases h2 : (inst.opcode >>> 12) &&& 0x0F = 0x2
        · rw [if_pos h2] at hstep
          cases hl : stack_store bo { c with PC := (c.PC + 2) % 65536 } c.stack
              ((c.PC + 2) % 65536) with
          | error e =>
            rw [hl] at hstep
            cases hstep
          | ok c2 =>
            rw [hl] at hstep
            injection hstep with hstep
            subst hstep
            have hv := stack_store_ok bo _ c2 _ _ hl
            subst hv
            simp [h2]
        · rw [if_neg h2] at hstep
          by_cases h6 : (inst.opcode >>> 12) &&& 0x0F = 0x6
          · rw [if_pos h6] at hstep
            have hv := reg_write_ok _ c' _ _ hstep
            subst hv
            simp [h0, h1, h2]
          · rw [if_neg h6] at hstep
            by_cases h7 : (inst.opcode >>> 12) &&& 0x0F = 0x7
            · rw [if_pos h7] at hstep
              cases hl : reg_read { c with PC := (c.PC + 2) % 65536 } inst.X with
              | error e =>
                rw [hl] at hstep
                cases hstep
              | ok v =>
                rw [hl] at hstep
                have hv := reg_write_ok _ c' _ _ hstep
                subst hv
                simp [h0, h1, h2]
            · rw [if_neg h7] at hstep
              by_cases hA : (inst.opcode >>> 12) &&& 0x0F = 0xA
              · rw [if_pos hA] at hstep
                injection hstep with hstep
                subst hstep
                simp [h0, h1, h2]
              · rw [if_neg hA, if_neg hD] at hstep
                injection hstep with hstep
                subst hstep
                simp [h0, h1, h2]


/-! ## Parity of the program counter -/

/-- C14 (counterexample): `chip8_init` succeeds on the ROM `12 01`, and the
first step, the jump `1201`, leaves `PC = 0x201`, which is odd. -/
theorem pc_odd_after_jump :
    Raylib.chip8_init blank (some odd_jump_rom) = .ok (true, loaded blank odd_jump_rom) ∧
    Sdl.chip8_init blank (some odd_jump_rom) = .ok (true, loaded blank odd_jump_rom) ∧
    ∃ c', chip8_emulate_instruction .little (loaded blank odd_jump_rom) = .ok c' ∧
      c'.PC = 0x201 ∧ ¬ c'.PC % 2 = 0 := by
  refine ⟨raylib_init_loads blank odd_jump_rom (by decide),
    sdl_init_loads blank odd_jump_rom (by decide) (by decide), ?_⟩
  have hf := fetch_at (loaded blank odd_jump_rom) 0x200 0x12 0x01 rfl (by decide) rfl rfl
    (by decide) (by decide)
  exact ⟨_, emulate_jump .little _ _ _ hf (by decide), rfl, by decide⟩

/-- C14 (amended): `PC` is `0x200` after a successful `chip8_init`, and it
is even in every machine reached from there by completed steps whose jumps
and calls have even targets and whose returns find an even address on the
stack; from any such machine a completed jump or call leaves `PC = NNN`, so a
jump or call to an odd `NNN` leaves `PC` odd. -/
theorem pc_even_while_targets_even (bo : ByteOrder) (c0 ci c : Chip8)
    (file : Option (List Nat))
    (hinit : Raylib.chip8_init c0 file = .ok (true, ci) ∨
      Sdl.chip8_init c0 file = .ok (true, ci))
    (hreach : EvenTargetReach bo ci c) :
    ci.PC = 0x200 ∧ c.PC % 2 = 0 ∧
    ∀ (inst : Inst) (c1 c' : Chip8),
      chip8_fetch_next_instruction c = .ok (inst, c1) →
      chip8_emulate_instruction bo c = .ok c' →
      ((inst.opcode >>> 12) &&& 0x0F = 0x1 ∨ (inst.opcode >>> 12) &&& 0x0F = 0x2) →
      c'.PC = inst.NNN ∧ (inst.NNN % 2 = 1 → c'.PC % 2 = 1) := by
  have key : ∃ rom, ci = loaded c0 rom := by
    rcases hinit with h | h
    · obtain ⟨rom, _, _, h3⟩ := raylib_init_inv c0 ci file h
      exact ⟨rom, h3⟩
    · obtain ⟨rom, _, _, _, h3⟩ := sdl_init_inv c0 ci file h
      exact ⟨rom, h3⟩
  obtain ⟨rom, hci⟩ := key
  have hpc0 : ci.PC = 0x200 := by
    rw [hci]
    rfl
  refine ⟨hpc0, ?_, ?_⟩
  · induction hreach with
    | start =>
      rw [hpc0]
    | step c c1 c' inst _ hf hstep hjump hret ih =>
      obtain ⟨_, hpc⟩ := step_cursor bo c c1 c' inst hf hstep
      rw [hpc]
      by_cases h12 : (inst.opcode >>> 12) &&& 0x0F = 0x1 ∨ (inst.opcode >>> 12) &&& 0x0F = 0x2
      · rw [if_pos h12]
        exact hjump h12
      · rw [if_neg h12]
        by_cases hr : (inst.opcode >>> 12) &&& 0x0F = 0x0 ∧ inst.NN = 0xEE
        · rw [if_pos hr]
          exact hret hr
        · rw [if_neg hr]
          omega
  · intro inst c1 c' hf hstep h12
    obtain ⟨_, hpc⟩ := step_cursor bo c c1 c' inst hf hstep
    rw [if_pos h12] at hpc
    exact ⟨hpc, fun hodd => by rw [hpc]; exact hodd⟩

theorem pc_even_while_targets_even_witness :
    (∃ c, EvenTargetReach .little (loaded blank even_targets_rom) c ∧
      (loaded blank even_targets_rom).PC = 0x200 ∧ stack_depth c = 0 ∧ c.PC = 0 ∧
      c.PC % 2 = 0) ∧
    (∃ c', chip8_emulate_instruction .little (loaded blank odd_call_rom) = .ok c' ∧
      c'.PC = 0x205 ∧ c'.PC % 2 = 1) := by
  constructor
  · -- 0x200: 1204, a jump to the even address 0x204
    have hf0 := fetch_at (loaded blank even_targets_rom) 0x200 0x12 0x04 rfl (by decide)
      rfl rfl (by decide) (by decide)
    have h0 : chip8_emulate_instruction .little (loaded blank even_targets_rom) =
        .ok { (loaded blank even_targets_rom) with PC := 0x204 } :=
      emulate_jump .little _ _ _ hf0 (by decide)
    have r1 : EvenTargetReach .little (loaded blank even_targets_rom)
        { (loaded blank even_targets_rom) with PC := 0x204 } :=
      EvenTargetReach.step _ _ _ _ EvenTargetReach.start hf0 h0
        (fun _ => by decide) (fun h => absurd h.1 (by decide))
    -- 0x204: 2208, a call of the even address 0x208
    have hf1 := fetch_at { (loaded blank even_targets_rom) with PC := 0x204 } 0x204 0x22 0x08
      rfl (by decide) rfl rfl (by decide) (by decide)
    have h1 : chip8_emulate_instruction .little
          { (loaded blank even_targets_rom) with PC := 0x204 } =
        .ok { (loaded blank even_targets_rom) with
              ram := store16 .little (loaded blank even_targets_rom).ram 0xEA0 0x206
              PC := 0x208
              stack := 0xEA2 } :=
      emulate_call .little _ _ _ hf1 (by decide) (by decide) (by decide)
    have r2 := EvenTargetReach.step _ _ _ _ r1 hf1 h1
      (fun _ => by decide) (fun h => absurd h.1 (by decide))
    -- 0x208: 00EE, a return that finds the even address 0 in the slot it reads
    have hf2 := fetch_at
      { (loaded blank even_targets_rom) with
        ram := store16 .little (loaded blank even_targets_rom).ram 0xEA0 0x206
        PC := 0x208
        stack := 0xEA2 } 0x208 0x00 0xEE
      rfl (by decide) rfl rfl (by decide) (by decide)
    have h2 : chip8_emulate_instruction .little
          { (loaded blank even_targets_rom) with
            ram := store16 .little (loaded blank even_targets_rom).ram 0xEA0 0x206
            PC := 0x208
            stack := 0xEA2 } =
        .ok { (loaded blank even_targets_rom) with
              ram := store16 .little (loaded blank even_targets_rom).ram 0xEA0 0x206
              PC := 0
              stack := 0xEA0 } :=
      emulate_return .little _ _ _ hf2 (by decide) rfl (by decide) (by decide)
    have r3 := EvenTargetReach.step _ _ _ _ r2 hf2 h2
      (fun h => absurd h (by decide)) (fun _ => by decide)
    have h := pc_even_while_targets_even .little blank (loaded blank even_targets_rom) _
      (some even_targets_rom)
      (Or.inl (raylib_init_loads blank even_targets_rom (by decide))) r3
    exact ⟨_, r3, h.1, by decide, rfl, h.2.1⟩
  · -- 0x200: 2205, a call of the odd address 0x205
    have hf := fetch_at (loaded blank odd_call_rom) 0x200 0x22 0x05 rfl (by decide) rfl rfl
      (by decide) (by decide)
    have hstep := emulate_call .little _ _ _ hf (by decide) (by decide) (by decide)
    have h := pc_even_while_targets_even .little blank (loaded blank odd_call_rom)
      (loaded blank odd_call_rom) (some odd_call_rom)
      (Or.inl (raylib_init_loads blank odd_call_rom (by decide))) EvenTargetReach.start
    obtain ⟨hpc, hodd⟩ := h.2.2 _ _ _ hf hstep (Or.inr (by decide))
    exact ⟨_, hstep, hpc, hodd (by decide)⟩


/-! ## The call-stack depth -/

theorem self_call_run (bo : ByteOrder) (n : Nat) :
    ∀ c : Chip8, c.PC = 0x200 → c.ram 0x200 = 0x22 → c.ram 0x201 = 0x00 →
      (3744 : Int) ≤ c.stack → c.stack + 2 * n ≤ 4096 →
      ∃ c', run bo n c = .ok c' ∧ c'.stack = c.stack + 2 * n := by
  induction n with
  | zero =>
    intro c _ _ _ _ _
    exact ⟨c, rfl, by simp⟩
  | succ n ih =>
    intro c hpc h0 h1 hlo hhi
    have hf := fetch_at c 0x200 0x22 0x00 hpc (by decide) h0 h1 (by decide) (by decide)
    have hcall := emulate_call bo c _ _ hf (by decide) (by omega) (by omega)
    obtain ⟨c', hrun, hst⟩ := ih
      { c with
        ram := store16 bo c.ram c.stack.toNat ((c.PC + 2) % 65536)
        PC := 0x200
        stack := c.stack + 2 }
      rfl
      (by
        show store16 bo c.ram c.stack.toNat ((c.PC + 2) % 65536) 0x200 = 0x22
        rw [store16_frame bo _ _ _ _ (by omega) (by omega)]
        exact h0)
      (by
        show store16 bo c.ram c.stack.toNat ((c.PC + 2) % 65536) 0x201 = 0x00
        rw [store16_frame bo _ _ _ _ (by omega) (by omega)]
        exact h1)
      (by show (3744 : Int) ≤ c.stack + 2; omega)
      (by show c.stack + 2 + 2 * (n : Int) ≤ 4096; push_cast at hhi; omega)
    refine ⟨c', ?_, ?_⟩
    · rw [run_succ bo n c _ hcall]
      exact hrun
    · rw [hst]
      show c.stack + 2 + 2 * (n : Int) = c.stack + 2 * ((n + 1 : Nat) : Int)
      push_cast
      omega

/-- C15 (counterexample): the stack bounds are not enforced.  Right after
`chip8_init`, with no entry on the call stack, the return `00EE` completes
without any error and leaves the cursor below the stack region, at depth -1;
and seventeen steps of the program `2200` all complete and leave depth 17. -/
theorem stack_bounds_not_enforced :
    (∃ c', chip8_emulate_instruction .little (loaded blank lone_return_rom) = .ok c' ∧
      stack_depth (loaded blank lone_return_rom) = 0 ∧ stack_depth c' = -1 ∧
      c'.stack < CHIP8_STACK_B) ∧
    (∃ c', run .little 17 (loaded blank self_call_rom) = .ok c' ∧ stack_depth c' = 17) := by
  constructor
  · have hf := fetch_at (loaded blank lone_return_rom) 0x200 0x00 0xEE rfl (by decide) rfl rfl
      (by decide) (by decide)
    exact ⟨_, emulate_return .little _ _ _ hf (by decide) rfl (by decide) (by decide),
      by decide, by decide, by decide⟩
  · obtain ⟨c', hrun, hst⟩ := self_call_run .little 17 (loaded blank self_call_rom) rfl rfl rfl
      (by decide) (by decide)
    refine ⟨c', hrun, ?_⟩
    simp only [stack_depth, hst, CHIP8_STACK_B]
    decide

/-- C15 (amended): the depth is 0 after `chip8_init`; a completed step
changes it by exactly +1 when it is a call, by exactly -1 when it is a
return, and not at all otherwise; and a call or a return completes whenever
the 16-bit slot at the cursor lies inside the memory array, whatever the
depth: there is no capacity or emptiness check and no stack error. -/
theorem stack_depth_unguarded (bo : ByteOrder) (c0 : Chip8) (rom : List Nat)
    (c c1 : Chip8) (inst : Inst)
    (hf : chip8_fetch_next_instruction c = .ok (inst, c1)) :
    stack_depth (loaded c0 rom) = 0 ∧
    (∀ c', chip8_emulate_instruction bo c = .ok c' →
      stack_depth c' =
        (if (inst.opcode >>> 12) &&& 0x0F = 0x2 then stack_depth c + 1
         else if (inst.opcode >>> 12) &&& 0x0F = 0x0 ∧ inst.NN = 0xEE then stack_depth c - 1
         else stack_depth c)) ∧
    (((inst.opcode >>> 12) &&& 0x0F = 0x2 ∨
        ((inst.opcode >>> 12) &&& 0x0F = 0x0 ∧ inst.NN = 0xEE)) →
      0 ≤ c.stack → c.stack + 1 < 4096 →
      ∃ c', chip8_emulate_instruction bo c = .ok c') := by
  refine ⟨by simp [stack_depth, loaded, init_finish], ?_, ?_⟩
  · intro c' hstep
    obtain ⟨hst, _⟩ := step_cursor bo c c1 c' inst hf hstep
    simp only [stack_depth, hst, CHIP8_STACK_B, Nat.cast_ofNat]
    by_cases h2 : (inst.opcode >>> 12) &&& 0x0F = 0x2
    · rw [if_pos h2, if_pos h2]
      omega
    · rw [if_neg h2, if_neg h2]
      by_cases hr : (inst.opcode >>> 12) &&& 0x0F = 0x0 ∧ inst.NN = 0xEE
      · rw [if_pos hr, if_pos hr]
        omega
      · rw [if_neg hr, if_neg hr]
  · intro hcase h0 h1
    rcases hcase with h2 | ⟨hz, hEE⟩
    · exact ⟨_, emulate_call bo c c1 inst hf h2 h0 h1⟩
    · exact ⟨_, emulate_return bo c c1 inst hf hz hEE h0 h1⟩

theorem stack_depth_unguarded_witness :
    stack_depth sixteen_deep = 16 ∧
    ∃ c', chip8_emulate_instruction .little sixteen_deep = .ok c' ∧ stack_depth c' = 17 := by
  have hf := fetch_at sixteen_deep 0x200 0x22 0x00 rfl (by decide) rfl rfl (by decide) (by decide)
  obtain ⟨_, hdepth, hok⟩ := stack_depth_unguarded .little blank self_call_rom sixteen_deep _ _ hf
  obtain ⟨c', hstep⟩ := hok (Or.inl (by decide)) (by decide) (by decide)
  refine ⟨by decide, c', hstep, ?_⟩
  rw [hdepth c' hstep]
  decide


/-! ## Jump, add-immediate, clear-screen, unimplemented opcodes -/

/-- C16: the jump `1NNN`.  For every `NNN ≤ 0xFFF` and every machine whose
two bytes at `PC` encode `1NNN`, the step returns the same machine with `PC`
set to `NNN`: the result does not depend on the old `PC`, and the stack
cursor, memory, registers, `I`, display and all other fields are unchanged. -/
theorem jump_sets_pc (bo : ByteOrder) (c : Chip8) (nnn : Nat) (hpc : c.PC ≤ 4094)
    (hn : nnn ≤ 0xFFF) (h0 : c.ram c.PC = 0x10 + nnn / 256)
    (h1 : c.ram (c.PC + 1) = nnn % 256) :
    chip8_emulate_instruction bo c = .ok { c with PC := nnn } := by
  have hf := fetch_at c c.PC (0x10 + nnn / 256) (nnn % 256) rfl (by omega) h0 h1
    (by omega) (by omega)
  have hop : (((0x10 + nnn / 256) * 256 + nnn % 256) >>> 12) &&& 0x0F = 0x1 := by
    rw [shr_12, and_0F]
    omega
  rw [emulate_jump bo c _ _ hf hop]
  have e : (0x10 + nnn / 256) % 16 * 256 + nnn % 256 = nnn := by omega
  simp only [e]

theorem jump_sets_pc_witness :
    chip8_emulate_instruction .little (loaded blank odd_jump_rom) =
      .ok { (loaded blank odd_jump_rom) with PC := 0x201 } :=
  jump_sets_pc .little (loaded blank odd_jump_rom) 0x201 (by decide) (by decide) rfl rfl

/-- C17: the add-immediate `7XNN`.  For every machine whose two bytes at `PC`
encode `7XNN`, the step returns the machine with `PC` advanced by 2 and
`V[X]` replaced by `(V[X] + NN) mod 256`; every other register, `VF` included
when `X` is not `0xF`, keeps its value (no carry flag), as does every other
field. -/
theorem add_immediate_wraps (bo : ByteOrder) (c : Chip8) (x nn : Nat) (hpc : c.PC ≤ 4094)
    (hx : x < 16) (hnn : nn < 256) (h0 : c.ram c.PC = 0x70 + x)
    (h1 : c.ram (c.PC + 1) = nn) :
    ∃ c', chip8_emulate_instruction bo c = .ok c' ∧
      c' = { c with PC := c.PC + 2, V := Function.update c.V x ((c.V x + nn) % 256) } ∧
      c'.V x = (c.V x + nn) % 256 ∧
      (∀ i, i ≠ x → c'.V i = c.V i) ∧
      (x ≠ 0xF → c'.V 0xF = c.V 0xF) := by
  have hf := fetch_at c c.PC (0x70 + x) nn rfl (by omega) h0 h1 (by omega) hnn
  have hop : (((0x70 + x) * 256 + nn) >>> 12) &&& 0x0F = 0x7 := by
    rw [shr_12, and_0F]
    omega
  have e : (0x70 + x) % 16 = x := by omega
  have hstep := emulate_add bo c _ _ hf hop
  simp only [e] at hstep
  refine ⟨_, hstep, rfl, ?_, ?_, ?_⟩
  · exact Function.update_same _ _ _
  · intro i hi
    exact Function.update_noteq hi _ _
  · intro hF
    exact Function.update_noteq (Ne.symm hF) _ _

theorem add_immediate_wraps_witness :
    ∃ c', chip8_emulate_instruction .little demo_add = .ok c' ∧
      c'.V 3 = 0x01 ∧ c'.V 0xF = 5 := by
  obtain ⟨c', hstep, _, hv, _, hF⟩ := add_immediate_wraps .little demo_add 3 0x02
    (by decide) (by decide) (by decide) rfl rfl
  exact ⟨c', hstep, hv, hF (by decide)⟩

/-- C18: the clear-screen `00E0`.  For every machine whose two bytes at `PC`
are `00 E0`, whatever its display holds, the step returns a machine in which
every one of the `64 * 32` display cells is false and memory (the call stack
with it), the registers, `I` and the stack cursor are unchanged. -/
theorem clear_screen_clears (bo : ByteOrder) (c : Chip8) (hpc : c.PC ≤ 4094)
    (h0 : c.ram c.PC = 0x00) (h1 : c.ram (c.PC + 1) = 0xE0) :
    ∃ c', chip8_emulate_instruction bo c = .ok c' ∧
      (∀ i, i < 64 * 32 → c'.display i = false) ∧
      c'.ram = c.ram ∧ c'.V = c.V ∧ c'.I = c.I ∧ c'.stack = c.stack ∧
      c'.PC = c.PC + 2 := by
  have hf := fetch_at c c.PC 0x00 0xE0 rfl (by omega) h0 h1 (by decide) (by decide)
  refine ⟨_, emulate_clear bo c _ _ hf (by decide) rfl, ?_, rfl, rfl, rfl, rfl, rfl⟩
  intro i hi
  have hi' : i < DISPLAY_CELLS := hi
  simp only [if_pos hi']

theorem clear_screen_clears_witness :
    demo_clear.display 0 = true ∧
    ∃ c', chip8_emulate_instruction .little demo_clear = .ok c' ∧
      (∀ i, i < 64 * 32 → c'.display i = false) ∧ c'.V = demo_clear.V := by
  obtain ⟨c', hstep, hd, _, hV, _⟩ := clear_screen_clears .little demo_clear (by decide) rfl rfl
  exact ⟨rfl, c', hstep, hd, hV⟩

/-- C19: unimplemented instructions.  When the fetched opcode has a top
nibble other than `0x0, 0x1, 0x2, 0x6, 0x7, 0xA, 0xD`, or has top nibble
`0x0` and a low byte that is neither `0xE0` nor `0xEE`, the step returns the
given machine with `PC` advanced by 2 and nothing else changed. -/
theorem unimplemented_is_noop (bo : ByteOrder) (c c1 : Chip8) (inst : Inst)
    (hf : chip8_fetch_next_instruction c = .ok (inst, c1))
    (hcase : ((inst.opcode >>> 12) &&& 0x0F = 0x0 ∧ inst.NN ≠ 0xE0 ∧ inst.NN ≠ 0xEE) ∨
      ((inst.opcode >>> 12) &&& 0x0F ≠ 0x0 ∧ (inst.opcode >>> 12) &&& 0x0F ≠ 0x1 ∧
       (inst.opcode >>> 12) &&& 0x0F ≠ 0x2 ∧ (inst.opcode >>> 12) &&& 0x0F ≠ 0x6 ∧
       (inst.opcode >>> 12) &&& 0x0F ≠ 0x7 ∧ (inst.opcode >>> 12) &&& 0x0F ≠ 0xA ∧
       (inst.opcode >>> 12) &&& 0x0F ≠ 0xD)) :
    chip8_emulate_instruction bo c = .ok { c with PC := c.PC + 2 } := by
  obtain ⟨hpc, hc1, _⟩ := fetch_inv c c1 inst hf
  have hpc2 : (c.PC + 2) % 65536 = c.PC + 2 := by omega
  rw [emulate_noop bo c c1 inst hf hcase, hc1, hpc2]

theorem unimplemented_is_noop_witness :
    chip8_emulate_instruction .big demo_unimplemented =
      .ok { demo_unimplemented with PC := 0x202 } :=
  unimplemented_is_noop .big demo_unimplemented { demo_unimplemented with PC := 0x202 }
    { opcode := 0x8120, X := 1, Y := 2, N := 0, NN := 0x20, NNN := 0x120 } rfl
    (Or.inr (by decide))


/-! ## The run state under input events -/

/-- C20 (defect in `handle_input` of `main.c`): Quit is not terminal.  The
`SDL_QUIT` case returns at once, but the Escape case only leaves the `switch`
and the polling loop goes on; a Space key-down later in the same queue finds
a state other than Running and sets Running.  So from any machine the queue
`[Escape down]` gives Quit, the queue `[Escape down, Space down]` gives
Running, while `[SDL_QUIT, Space down]` stays Quit and leaves the Space event
in the queue.  Called on a machine that is already in Quit, the toggle of
`main.c` gives Running and the toggle of `chip8.c` gives Paused. -/
theorem quit_not_terminal (c : Chip8) :
    (Sdl.handle_input c [.SDL_KEYDOWN .SDLK_ESCAPE]).1.state = .EMULATOR_QUIT ∧
    (Sdl.handle_input c [.SDL_KEYDOWN .SDLK_ESCAPE, .SDL_KEYDOWN .SDLK_SPACE]).1.state =
      .EMULATOR_RUNNING ∧
    Sdl.handle_input c [.SDL_QUIT, .SDL_KEYDOWN .SDLK_SPACE] =
      ({ c with state := .EMULATOR_QUIT }, [.SDL_KEYDOWN .SDLK_SPACE]) ∧
    (Sdl.handle_input { c with state := .EMULATOR_QUIT } [.SDL_KEYDOWN .SDLK_SPACE]).1.state =
      .EMULATOR_RUNNING ∧
    (Raylib.handle_input { c with state := .EMULATOR_QUIT } false true).state =
      .EMULATOR_PAUSED := by
  refine ⟨rfl, ?_, rfl, ?_, ?_⟩
  · simp [Sdl.handle_input]
  · simp [Sdl.handle_input]
  · simp [Raylib.handle_input]


/-! ## What a step writes, and when it completes -/

theorem step_ram (bo : ByteOrder) (c c1 c' : Chip8) (inst : Inst)
    (hf : chip8_fetch_next_instruction c = .ok (inst, c1))
    (hstep : chip8_emulate_instruction bo c = .ok c') :
    c'.ram =
      (if (inst.opcode >>> 12) &&& 0x0F = 0x2 then
         store16 bo c.ram c.stack.toNat ((c.PC + 2) % 65536)
       else c.ram) := by
  obtain ⟨_, hc1, _⟩ := fetch_inv c c1 inst hf
  by_cases hD : (inst.opcode >>> 12) &&& 0x0F = 0xD
  · obtain ⟨hc', _⟩ := emulate_draw_of_ok bo c c1 c' inst hf hD hstep
    rw [hc']
    simp [hD]
  · rw [emulate_of_fetch bo c c1 inst hf] at hstep
    subst hc1
    unfold execute at hstep
    simp only [] at hstep
    by_cases h0 : (inst.opcode >>> 12) &&& 0x0F = 0x0
    · rw [if_pos h0] at hstep
      by_cases hE0 : inst.NN = 0xE0
      · rw [if_pos hE0] at hstep
        injection hstep with hstep
        subst hstep
        simp [h0]
      · rw [if_neg hE0] at hstep
        by_cases hEE : inst.NN = 0xEE
        · rw [if_pos hEE] at hstep
          cases hl : stack_load bo { c with PC := (c.PC + 2) % 65536 } c.stack with
          | error e =>
            rw [hl] at hstep
            cases hstep
          | ok v =>
            rw [hl] at hstep
            injection hstep with hstep
            subst hstep
            simp [h0]
        · rw [if_neg hEE] at hstep
          injection hstep with hstep
          subst hstep
          simp [h0]
    · rw [if_neg h0] at hstep
      by_cases h1 : (inst.opcode >>> 12) &&& 0x0F = 0x1
      · rw [if_pos h1] at hstep
        injection hstep with hstep
        subst hstep
        simp [h1]
      · rw [if_neg h1] at hstep
        by_cases h2 : (inst.opcode >>> 12) &&& 0x0F = 0x2
        · rw [if_pos h2] at hstep
          cases hl : stack_store bo { c with PC := (c.PC + 2) % 65536 } c.stack
              ((c.PC + 2) % 65536) with
          | error e =>
            rw [hl] at hstep
            cases hstep
          | ok c2 =>
            rw [hl] at hstep
            injection hstep with hstep
            subst hstep
            have hv := stack_store_ok bo _ c2 _ _ hl
            subst hv
            simp [h2]
        · rw [if_neg h2] at hstep
          by_cases h6 : (inst.opcode >>> 12) &&& 0x0F = 0x6
          · rw [if_pos h6] at hstep
            have hv := reg_write_ok _ c' _ _ hstep
            subst hv
            simp [h2]
          · rw [if_neg h6] at hstep
            by_cases h7 : (inst.opcode >>> 12) &&& 0x0F = 0x7
            · rw [if_pos h7] at hstep
              cases hl : reg_read { c with PC := (c.PC + 2) % 65536 } inst.X with
              | error e =>
                rw [hl] at hstep
                cases hstep
              | ok v =>
                rw [hl] at hstep
                have hv := reg_write_ok _ c' _ _ hstep
                subst hv
                simp [h2]
            · rw [if_neg h7] at hstep
              by_cases hA : (inst.opcode >>> 12) &&& 0x0F = 0xA
              · rw [if_pos hA] at hstep
                injection hstep with hstep
                subst hstep
                simp [h2]
              · rw [if_neg hA, if_neg hD] at hstep
                injection hstep with hstep
                subst hstep
                simp [h2]

theorem step_completes (bo : ByteOrder) (c c1 : Chip8) (inst : Inst)
    (hf : chip8_fetch_next_instruction c = .ok (inst, c1))
    (hdraw : (inst.opcode >>> 12) &&& 0x0F = 0xD →
      ∀ r, r < inst.N → c.V inst.Y % 32 + r < 32 → c.I + r < 4096)
    (hstk : ((inst.opcode >>> 12) &&& 0x0F = 0x2 ∨
        ((inst.opcode >>> 12) &&& 0x0F = 0x0 ∧ inst.NN = 0xEE)) →
      0 ≤ c.stack ∧ c.stack + 1 < 4096) :
    ∃ c', chip8_emulate_instruction bo c = .ok c' := by
  by_cases h0 : (inst.opcode >>> 12) &&& 0x0F = 0x0
  · by_cases hE0 : inst.NN = 0xE0
    · exact ⟨_, emulate_clear bo c c1 inst hf h0 hE0⟩
    · by_cases hEE : inst.NN = 0xEE
      · obtain ⟨hs0, hs1⟩ := hstk (Or.inr ⟨h0, hEE⟩)
        exact ⟨_, emulate_return bo c c1 inst hf h0 hEE hs0 hs1⟩
      · exact ⟨_, emulate_noop bo c c1 inst hf (Or.inl ⟨h0, hE0, hEE⟩)⟩
  · by_cases h1 : (inst.opcode >>> 12) &&& 0x0F = 0x1
    · exact ⟨_, emulate_jump bo c c1 inst hf h1⟩
    · by_cases h2 : (inst.opcode >>> 12) &&& 0x0F = 0x2
      · obtain ⟨hs0, hs1⟩ := hstk (Or.inl h2)
        exact ⟨_, emulate_call bo c c1 inst hf h2 hs0 hs1⟩
      · by_cases h6 : (inst.opcode >>> 12) &&& 0x0F = 0x6
        · exact ⟨_, emulate_set bo c c1 inst hf h6⟩
        · by_cases h7 : (inst.opcode >>> 12) &&& 0x0F = 0x7
          · exact ⟨_, emulate_add bo c c1 inst hf h7⟩
          · by_cases hA : (inst.opcode >>> 12) &&& 0x0F = 0xA
            · exact ⟨_, emulate_set_index bo c c1 inst hf hA⟩
            · by_cases hD : (inst.opcode >>> 12) &&& 0x0F = 0xD
              · obtain ⟨D, W, heq, _⟩ := emulate_draw bo c c1 inst hf hD (hdraw hD)
                exact ⟨_, heq⟩
              · exact ⟨_, emulate_noop bo c c1 inst hf
                  (Or.inr ⟨h0, h1, h2, h6, h7, hA, hD⟩)⟩


theorem debug_reads_ok (bo : ByteOrder) (c c1 : Chip8) (inst : Inst)
    (hf : chip8_fetch_next_instruction c = .ok (inst, c1))
    (hstk : ((inst.opcode >>> 12) &&& 0x0F = 0x0 ∧ inst.NN = 0xEE) →
      2 ≤ c.stack ∧ c.stack < 4097) :
    print_debug_info bo c1 inst = .ok () := by
  obtain ⟨_, hc1, _, hX, hY, _⟩ := fetch_inv c c1 inst hf
  have hX16 : inst.X < 16 := by omega
  have hY16 : inst.Y < 16 := by omega
  subst hc1
  unfold print_debug_info
  simp only []
  by_cases h0 : (inst.opcode >>> 12) &&& 0x0F = 0x0
  · rw [if_pos h0]
    by_cases hE0 : inst.NN = 0xE0
    · rw [if_pos hE0]
    · rw [if_neg hE0]
      by_cases hEE : inst.NN = 0xEE
      · obtain ⟨hs0, hs1⟩ := hstk ⟨h0, hEE⟩
        have hb : (0 : Int) ≤ c.stack - 2 ∧ c.stack - 2 + 1 < (CHIP8_RAM_CAPACITY : Nat) := by
          simp only [CHIP8_RAM_CAPACITY, Nat.cast_ofNat]
          omega
        rw [if_pos hEE]
        simp only [stack_load, if_pos hb]
      · rw [if_neg hEE]
  · rw [if_neg h0]
    simp only [reg_read, if_pos hX16, if_pos hY16]
    split_ifs <;> rfl

/-- C21: memory outside the stack region is never written by a step.  In a
machine whose stack cursor lies inside the stack region `[0xEA0, 0xEFF]`, on a
16-bit slot (a whole number of `uint16_t` steps from `&ram[0xEA0]`, as every
cursor the code computes is), a completed step leaves every byte of memory
outside that region unchanged; a step that is not a call leaves all of memory
unchanged; a call changes no byte other than the two of the slot at the
cursor.  The step completes unless it is a draw whose sprite rows leave the
memory array, and it leaves the cursor on a slot. -/
theorem ram_written_only_by_call (bo : ByteOrder) (c c1 : Chip8) (inst : Inst)
    (hf : chip8_fetch_next_instruction c = .ok (inst, c1))
    (hlo : (CHIP8_STACK_B : Int) ≤ c.stack) (hhi : c.stack ≤ (CHIP8_STACK_E : Int))
    (halign : (c.stack - (CHIP8_STACK_B : Int)) % 2 = 0) :
    (((inst.opcode >>> 12) &&& 0x0F = 0xD →
        ∀ r, r < inst.N → c.V inst.Y % 32 + r < 32 → c.I + r < 4096) →
      ∃ c', chip8_emulate_instruction bo c = .ok c') ∧
    ∀ c', chip8_emulate_instruction bo c = .ok c' →
      (∀ a : Nat, ¬ (CHIP8_STACK_B ≤ a ∧ a ≤ CHIP8_STACK_E) → c'.ram a = c.ram a) ∧
      ((inst.opcode >>> 12) &&& 0x0F ≠ 0x2 → c'.ram = c.ram) ∧
      ((inst.opcode >>> 12) &&& 0x0F = 0x2 →
        ∀ a : Nat, (a : Int) ≠ c.stack → (a : Int) ≠ c.stack + 1 → c'.ram a = c.ram a) ∧
      (c'.stack - (CHIP8_STACK_B : Int)) % 2 = 0 := by
  simp only [CHIP8_STACK_B, CHIP8_STACK_E, Nat.cast_ofNat] at hlo hhi halign ⊢
  constructor
  · intro hdraw
    exact step_completes bo c c1 inst hf hdraw (fun _ => ⟨by omega, by omega⟩)
  · intro c' hstep
    have hram := step_ram bo c c1 c' inst hf hstep
    obtain ⟨hst, _⟩ := step_cursor bo c c1 c' inst hf hstep
    have hcall : (inst.opcode >>> 12) &&& 0x0F = 0x2 →
        ∀ a : Nat, (a : Int) ≠ c.stack → (a : Int) ≠ c.stack + 1 → c'.ram a = c.ram a := by
      intro h2 a ha0 ha1
      rw [hram, if_pos h2]
      exact store16_frame bo c.ram _ _ a (by omega) (by omega)
    refine ⟨?_, ?_, hcall, ?_⟩
    · intro a hout
      by_cases h2 : (inst.opcode >>> 12) &&& 0x0F = 0x2
      · exact hcall h2 a (by omega) (by omega)
      · rw [hram, if_neg h2]
    · intro h2
      rw [hram, if_neg h2]
    · rw [hst]
      split_ifs <;> omega

theorem ram_written_only_by_call_witness :
    ∃ c', chip8_emulate_instruction .little (loaded blank call_return_rom) = .ok c' ∧
      (∀ a : Nat, ¬ (CHIP8_STACK_B ≤ a ∧ a ≤ CHIP8_STACK_E) →
        c'.ram a = (loaded blank call_return_rom).ram a) := by
  obtain ⟨hok, hframe⟩ := ram_written_only_by_call .little (loaded blank call_return_rom)
    { (loaded blank call_return_rom) with PC := 0x202 }
    { opcode := 0x2204, X := 2, Y := 0, N := 4, NN := 0x04, NNN := 0x204 } rfl
    (by decide) (by decide) (by decide)
  obtain ⟨c', hstep⟩ := hok (fun h => absurd h (by decide))
  exact ⟨c', hstep, (hframe c' hstep).1⟩

/-- C22: the draw instruction touches only the display and `VF`.  In every
state whose fetch yields a `DXYN`, the step completes exactly when the sprite
rows it draws lie inside the memory array, and the machine it returns has the
memory, `I`, stack cursor, timers, keypad, run state and registers other than
`VF` of the given one, and `PC` advanced by 2. -/
theorem draw_touches_only_display_and_vf (bo : ByteOrder) (c c1 : Chip8) (inst : Inst)
    (hf : chip8_fetch_next_instruction c = .ok (inst, c1))
    (hop : (inst.opcode >>> 12) &&& 0x0F = 0xD) :
    ((∀ r, r < inst.N → c.V inst.Y % 32 + r < 32 → c.I + r < 4096) ↔
      ∃ c', chip8_emulate_instruction bo c = .ok c') ∧
    ∀ c', chip8_emulate_instruction bo c = .ok c' →
      c'.ram = c.ram ∧ c'.I = c.I ∧ c'.stack = c.stack ∧
      c'.delay_timer = c.delay_timer ∧ c'.sound_timer = c.sound_timer ∧
      c'.keypad = c.keypad ∧ c'.state = c.state ∧ c'.rom_name = c.rom_name ∧
      (∀ i, i ≠ 0xF → c'.V i = c.V i) ∧
      c'.PC = c.PC + 2 := by
  refine ⟨draw_defined_iff bo c c1 inst hf hop, ?_⟩
  intro c' hstep
  obtain ⟨hpc, _⟩ := fetch_inv c c1 inst hf
  have hpc2 : (c.PC + 2) % 65536 = c.PC + 2 := by omega
  obtain ⟨hc', _, hW1, hW0⟩ := emulate_draw_of_ok bo c c1 c' inst hf hop hstep
  have hV : ∀ i, i ≠ 0xF → c'.V i = c.V i := by
    intro i hi
    by_cases hc : ∃ r k, r < inst.N ∧ c.V inst.Y % 32 + r < 32 ∧ k < 8 ∧
        c.V inst.X % 64 + k < 64 ∧ (c.ram (c.I + r)).testBit (7 - k) = true ∧
        c.display ((c.V inst.Y % 32 + r) * 64 + c.V inst.X % 64 + k) = true
    · rw [hW1 hc]
      exact Function.update_noteq hi _ _
    · rw [hW0 hc]
      exact Function.update_noteq hi _ _
  rw [hc']
  exact ⟨rfl, rfl, rfl, rfl, rfl, rfl, rfl, rfl, hV, hpc2⟩

theorem draw_touches_only_display_and_vf_witness :
    ∃ c', chip8_emulate_instruction .little demo_hit = .ok c' ∧
      c'.ram = demo_hit.ram ∧ c'.I = 0x202 ∧ c'.V 0 = 0 ∧ c'.PC = 0x202 := by
  obtain ⟨hdef, hframe⟩ := draw_touches_only_display_and_vf .little demo_hit
    { demo_hit with PC := 0x202 }
    { opcode := 0xD011, X := 0, Y := 1, N := 1, NN := 0x11, NNN := 0x011 } rfl rfl
  obtain ⟨c', h⟩ := hdef.mp (by
    intro r hr _
    show 0x202 + r < 4096
    simp only [] at hr
    omega)
  obtain ⟨h1, h2, _, _, _, _, _, _, h9, h10⟩ := hframe c' h
  exact ⟨c', h, h1, h2, h9 0 (by decide), h10⟩


/-- C23: no out-of-bounds access under the preconditions.  Every array
access of the model is checked, so an index outside its array shows as a
`Fault`.  With `PC ≤ 4094` the fetch completes; if moreover `I + N ≤ 4096`
when the fetched instruction is a draw, and the 16-bit slot at the stack
cursor lies inside `[0xEA0, 0xEFF]` when it is a call or a return, then
the step completes without a fault, and so do the reads of the debug output
that the step makes unless `NDEBUG` is defined. -/
theorem step_in_bounds (bo : ByteOrder) (c : Chip8) (hpc : c.PC ≤ 4094) :
    ∃ inst c1, chip8_fetch_next_instruction c = .ok (inst, c1) ∧
      (((inst.opcode >>> 12) &&& 0x0F = 0xD → c.I + inst.N ≤ 4096) →
       (((inst.opcode >>> 12) &&& 0x0F = 0x2 ∨
          ((inst.opcode >>> 12) &&& 0x0F = 0x0 ∧ inst.NN = 0xEE)) →
         (CHIP8_STACK_B : Int) ≤ c.stack ∧ c.stack + 1 ≤ (CHIP8_STACK_E : Int)) →
       (∃ c', chip8_emulate_instruction bo c = .ok c') ∧
       print_debug_info bo c1 inst = .ok ()) := by
  have h0 : c.PC < CHIP8_RAM_CAPACITY := by simp only [CHIP8_RAM_CAPACITY]; omega
  have h1 : c.PC + 1 < CHIP8_RAM_CAPACITY := by simp only [CHIP8_RAM_CAPACITY]; omega
  have hf : ∃ inst c1, chip8_fetch_next_instruction c = .ok (inst, c1) := by
    simp only [chip8_fetch_next_instruction, ram_read, if_pos h0, if_pos h1]
    exact ⟨_, _, rfl⟩
  obtain ⟨inst, c1, hf⟩ := hf
  refine ⟨inst, c1, hf, ?_⟩
  intro hdraw hstk
  simp only [CHIP8_STACK_B, CHIP8_STACK_E, Nat.cast_ofNat] at hstk
  constructor
  · refine step_completes bo c c1 inst hf ?_ ?_
    · intro hD r hr _
      have := hdraw hD
      omega
    · intro hcase
      have := hstk hcase
      omega
  · refine debug_reads_ok bo c c1 inst hf ?_
    intro hret
    have := hstk (Or.inr hret)
    omega

theorem step_in_bounds_witness :
    (∃ c', chip8_emulate_instruction .little demo_draw = .ok c') ∧
    (∃ c', chip8_emulate_instruction .little (loaded blank call_return_rom) = .ok c') := by
  constructor
  · obtain ⟨inst, c1, hf, h⟩ := step_in_bounds .little demo_draw (by decide)
    have hf' : chip8_fetch_next_instruction demo_draw =
        .ok ({ opcode := 0xD015, X := 0, Y := 1, N := 5, NN := 0x15, NNN := 0x015 },
             { demo_draw with PC := 0x202 }) := rfl
    rw [hf'] at hf
    injection hf with hf
    injection hf with hi _
    subst hi
    exact (h (fun _ => by decide) (fun hc => by
      rcases hc with hc | hc
      · exact absurd hc (by decide)
      · exact absurd hc.1 (by decide))).1
  · obtain ⟨inst, c1, hf, h⟩ := step_in_bounds .little (loaded blank call_return_rom)
      (by decide)
    have hf' : chip8_fetch_next_instruction (loaded blank call_return_rom) =
        .ok ({ opcode := 0x2204, X := 2, Y := 0, N := 4, NN := 0x04, NNN := 0x204 },
             { (loaded blank call_return_rom) with PC := 0x202 }) := rfl
    rw [hf'] at hf
    injection hf with hf
    injection hf with hi _
    subst hi
    exact (h (fun hD => absurd hD (by decide)) (fun _ => by decide)).1

end Chip8Emu
